import Mathlib

/-!
Verification of the adjacency-map graph structure in `grafo.py`.

The Python class `Grafo` stores two dictionaries `_saida` and `_entrada`
mapping each vertex to a dictionary from neighbour vertex to edge.  For an
undirected graph the two dictionaries are the very same object; for a
directed graph they are distinct.  Vertices and edges hash by object
identity (vertices) resp. by the identity pair of their endpoints (edges),
and neither class defines `__eq__`, so Python equality on both is object
identity.

The embedding below models Python object identities by natural numbers
allocated from a counter carried in the graph state, and Python
dictionaries by insertion-ordered association lists keyed by those
identity numbers.  The dict aliasing of the undirected case is modelled by
routing every read and write of `_entrada` to the `saida` field whenever
the `direcionado` flag is false, exactly as the alias makes the Python
code behave.
-/

/-- A Python payload (`elemento` / `peso`): an arbitrary value, with `none`
standing for Python `None` (the default argument of the insert methods). -/
abbrev Elem := Option Int

/-- A Python dict keyed by object identity: an insertion-ordered
association list with unique keys. -/
abbrev Dict (β : Type) := List (Nat × β)

/-- `m[k]` lookup / `m.get(k)` on a Python dict. -/
def dget {β : Type} (m : Dict β) (k : Nat) : Option β :=
  match m with
  | [] => none
  | (k', v) :: t => if k' = k then some v else dget t k

/-- `m[k] = v` on a Python dict: overwrite in place if the key exists,
append a fresh entry otherwise. -/
def dset {β : Type} (m : Dict β) (k : Nat) (v : β) : Dict β :=
  match m with
  | [] => [(k, v)]
  | (k', v') :: t => if k' = k then (k, v) :: t else (k', v') :: dset t k v

/-- The key view of a Python dict. -/
def dkeys {β : Type} (m : Dict β) : List Nat := m.map Prod.fst

/-- `Grafo.Vertice`: a payload plus an object identity (Python vertices hash
and compare by `id(self)`, which `vid` models). -/
structure Vertice where
  vid : Nat
  elemento : Elem
deriving DecidableEq

/-- `Grafo.Aresta`: origin, destination and payload, plus the object
identity `eid` of the edge object itself. -/
structure Aresta where
  eid : Nat
  origem : Vertice
  destino : Vertice
  peso : Elem
deriving DecidableEq

/-- `Aresta.vertices()`: the `(origem, destino)` tuple. -/
def Aresta.verticesA (a : Aresta) : Vertice × Vertice := (a.origem, a.destino)

/-- `Aresta.oposto(v)`: `self._destino if v is self._origem else
self._origem`; the `is` comparison is identity, i.e. `vid` equality. -/
def Aresta.oposto (a : Aresta) (v : Vertice) : Vertice :=
  if v.vid = a.origem.vid then a.destino else a.origem

/-- `Aresta.__hash__`: `hash((self._origem, self._destino))`, a function of
the identity pair of the endpoints only. -/
def Aresta.hashKey (a : Aresta) : Nat × Nat := (a.origem.vid, a.destino.vid)

/-- Python `==` on `Aresta`: the class defines no `__eq__`, so equality is
object identity. -/
def pyEqAresta (a b : Aresta) : Bool := a.eid == b.eid

/-- The state of a `Grafo` object.  `direcionado` records whether
`_entrada` is a dict object distinct from `_saida` (set once in `__init__`
and never reassigned); when it is false every access to `_entrada` is an
access to `saida`, which is how the alias is modelled.  `counter` allocates
fresh object identities. -/
structure Grafo where
  direcionado : Bool
  saida : Dict (Dict Aresta)
  entradaD : Dict (Dict Aresta)
  counter : Nat
deriving DecidableEq

/-- `Grafo.__init__(direcionado=False)`: both maps empty; `_entrada` is a
separate dict only when `direcionado`. -/
def Grafo.init (direcionado : Bool) : Grafo := ⟨direcionado, [], [], 0⟩

/-- Read through `self._entrada`: the alias means the undirected case reads
`saida`. -/
def Grafo.entrada (g : Grafo) : Dict (Dict Aresta) :=
  if g.direcionado then g.entradaD else g.saida

/-- Write through `self._entrada`: the alias means the undirected case
writes `saida`. -/
def Grafo.setEntrada (g : Grafo) (m : Dict (Dict Aresta)) : Grafo :=
  if g.direcionado then ⟨g.direcionado, g.saida, m, g.counter⟩
  else ⟨g.direcionado, m, g.entradaD, g.counter⟩

/-- `Grafo.e_direcionado()`: `self._entrada is not self._saida`.  The two
dicts are distinct objects exactly when `direcionado` was set in
`__init__`, which is what the field records. -/
def Grafo.e_direcionado (g : Grafo) : Bool := g.direcionado

/-- `Grafo.num_vertices()`: `len(self._saida)`. -/
def Grafo.num_vertices (g : Grafo) : Nat := g.saida.length

/-- `Grafo.vertices()`: the keys of `_saida` (vertex identities). -/
def Grafo.verticesG (g : Grafo) : List Nat := dkeys g.saida

/-- The inner sum of `Grafo.num_arestas`:
`sum(len(self._saida[v]) for v in self._saida)`. -/
def Grafo.totalA (g : Grafo) : Nat := (g.saida.map (fun p => p.2.length)).sum

/-- `Grafo.num_arestas()`: the double-count correction divides by two for
undirected graphs. -/
def Grafo.num_arestas (g : Grafo) : Nat :=
  if g.e_direcionado then g.totalA else g.totalA / 2

/-- `Grafo.arestas()`: a Python `set` built from all inner-dict values.
Set membership uses Python `==`, which on `Aresta` is object identity, so
the fold inserts an edge only when no edge with the same identity is
already present. -/
def Grafo.arestas (g : Grafo) : List Aresta :=
  g.saida.foldl
    (fun res p =>
      p.2.foldl
        (fun res q => if res.any (fun b => pyEqAresta b q.2) then res else res ++ [q.2])
        res)
    []

/-- `Grafo.aresta(u, v)`: `self._saida[u].get(v)`.  Indexing with an
unknown `u` raises `KeyError` (the `error` case); a known `u` with no edge
to `v` yields `ok none`. -/
def Grafo.aresta (g : Grafo) (u v : Vertice) : Except Unit (Option Aresta) :=
  match dget g.saida u.vid with
  | none => .error ()
  | some adj => .ok (dget adj v.vid)

/-- `Grafo.grau(v, saida=True)`: the size of `_saida[v]` or `_entrada[v]`;
`KeyError` when `v` is not a key. -/
def Grafo.grau (g : Grafo) (v : Vertice) (s : Bool) : Except Unit Nat :=
  match dget (if s then g.saida else g.entrada) v.vid with
  | none => .error ()
  | some m => .ok m.length

/-- `Grafo.arestas_incidentes(v, saida=True)`: the values of `_saida[v]` or
`_entrada[v]` in iteration order. -/
def Grafo.arestas_incidentes (g : Grafo) (v : Vertice) (s : Bool) :
    Except Unit (List Aresta) :=
  match dget (if s then g.saida else g.entrada) v.vid with
  | none => .error ()
  | some m => .ok (m.map Prod.snd)

/-- `Grafo.inserir_vertice(x)`: allocate a fresh vertex, register an empty
adjacency in `_saida`, and in `_entrada` too when the graph is directed. -/
def Grafo.inserir_vertice (g : Grafo) (x : Elem) : Grafo × Vertice :=
  let v : Vertice := ⟨g.counter, x⟩
  let saida' := dset g.saida v.vid ([] : Dict Aresta)
  let entrada' := if g.direcionado then dset g.entradaD v.vid [] else g.entradaD
  (⟨g.direcionado, saida', entrada', g.counter + 1⟩, v)

/-- `Grafo.inserir_aresta(u, v, x)`: build the edge object, then execute
`self._saida[u][v] = a` followed by `self._entrada[v][u] = a`.  Each dict
indexing step can raise `KeyError`; the write to `_saida` persists even
when the later `_entrada` indexing fails, exactly as in Python. -/
def Grafo.inserir_aresta (g : Grafo) (u v : Vertice) (x : Elem) :
    Grafo × Except Unit Aresta :=
  let a : Aresta := ⟨g.counter, u, v, x⟩
  let g1 : Grafo := ⟨g.direcionado, g.saida, g.entradaD, g.counter + 1⟩
  match dget g1.saida u.vid with
  | none => (g1, .error ())
  | some adjU =>
    let g2 : Grafo :=
      ⟨g1.direcionado, dset g1.saida u.vid (dset adjU v.vid a), g1.entradaD, g1.counter⟩
    match dget g2.entrada v.vid with
    | none => (g2, .error ())
    | some adjV =>
      (g2.setEntrada (dset g2.entrada v.vid (dset adjV u.vid a)), .ok a)

/-! ### Client programs

A graph "built by any sequence of `insert_vertex` and `insert_edge` calls"
is modelled by running a list of operations from the empty graph.  An edge
operation names its endpoints by their position in the list of vertices
returned so far, so it can mention exactly the vertices belonging to the
graph; an operation with an out-of-range position is a no-op. -/

inductive Op where
  | insV (x : Elem)
  | insE (i j : Nat) (x : Elem)
deriving DecidableEq

structure BuildState where
  g : Grafo
  vs : List Vertice
deriving DecidableEq

def runOp (s : BuildState) (op : Op) : BuildState :=
  match op with
  | .insV x =>
    let p := s.g.inserir_vertice x
    ⟨p.1, s.vs ++ [p.2]⟩
  | .insE i j x =>
    match s.vs.get? i, s.vs.get? j with
    | some u, some v => ⟨(s.g.inserir_aresta u v x).1, s.vs⟩
    | _, _ => s

def build (d : Bool) (ops : List Op) : BuildState :=
  ops.foldl runOp ⟨Grafo.init d, []⟩

/-- `saida[x][y]` as a partial lookup: the edge stored in the slot from `x`
to `y`, if any. -/
def lk (m : Dict (Dict Aresta)) (x y : Nat) : Option Aresta :=
  match dget m x with
  | none => none
  | some adj => dget adj y

/-- The flattened list of all `(outer key, inner key, edge)` entries of an
adjacency map. -/
def entriesD (m : Dict (Dict Aresta)) : List (Nat × Nat × Aresta) :=
  match m with
  | [] => []
  | (k, adj) :: t => adj.map (fun q => (k, q.1, q.2)) ++ entriesD t

/-- The edge-object identity of an entry. -/
def eidOf (t : Nat × Nat × Aresta) : Nat := t.2.2.eid

/-- Swap the two slot coordinates of an entry. -/
def swapT (t : Nat × Nat × Aresta) : Nat × Nat × Aresta := (t.2.1, t.1, t.2.2)

/-- The accumulator pass of `Grafo.arestas` expressed over a flat entry
list. -/
def foldE (res : List Aresta) (l : List (Nat × Nat × Aresta)) : List Aresta :=
  l.foldl
    (fun res t => if res.any (fun b => pyEqAresta b t.2.2) then res else res ++ [t.2.2])
    res

/-- An operation that never inserts a self-loop. -/
def selfFree : Op → Prop
  | .insE i j _ => i ≠ j
  | .insV _ => True

instance : DecidablePred selfFree := fun op =>
  match op with
  | .insV _ => isTrue trivial
  | .insE i j _ => inferInstanceAs (Decidable (i ≠ j))

/-- Structural invariants of every state reachable by a client program. -/
structure GInv (s : BuildState) : Prop where
  vsNodup : (s.vs.map Vertice.vid).Nodup
  vsLt : ∀ w ∈ s.vs, w.vid < s.g.counter
  keysEq : dkeys s.g.saida = s.vs.map Vertice.vid
  keysEqIn : s.g.direcionado = true → dkeys s.g.entradaD = s.vs.map Vertice.vid
  innerNodup : ∀ p ∈ s.g.saida, (dkeys p.2).Nodup
  innerKeys : ∀ p ∈ s.g.saida, ∀ q ∈ p.2, q.1 ∈ s.vs.map Vertice.vid
  innerKeysIn : s.g.direcionado = true →
    ∀ p ∈ s.g.entradaD, ∀ q ∈ p.2, q.1 ∈ s.vs.map Vertice.vid
  eidLt : ∀ p ∈ s.g.saida, ∀ q ∈ p.2, (q.2 : Aresta).eid < s.g.counter
  ends : ∀ p ∈ s.g.saida, ∀ q ∈ p.2,
    ((q.2 : Aresta).origem.vid = p.1 ∧ q.2.destino.vid = q.1) ∨
    (q.2.origem.vid = q.1 ∧ q.2.destino.vid = p.1)
  endsD : s.g.direcionado = true → ∀ p ∈ s.g.saida, ∀ q ∈ p.2,
    (q.2 : Aresta).origem.vid = p.1 ∧ q.2.destino.vid = q.1
  sym : s.g.direcionado = false → ∀ x y, lk s.g.saida x y = lk s.g.saida y x
  cross : s.g.direcionado = true → ∀ x y, lk s.g.saida x y = lk s.g.entradaD y x
  eidInj : ∀ x y a x' y' a', lk s.g.saida x y = some a → lk s.g.saida x' y' = some a' →
    a.eid = a'.eid → a = a'

/-- No slot of the adjacency map is a self-loop slot. -/
def NoLoop (s : BuildState) : Prop := ∀ x, lk s.g.saida x x = none

/-! ### Dictionary lemmas -/

theorem dget_dset_self {β : Type} (m : Dict β) (k : Nat) (v : β) :
    dget (dset m k v) k = some v := by
  induction m with
  | nil => simp [dget, dset]
  | cons p t ih =>
    by_cases h : p.1 = k
    · simp [dget, dset, h]
    · simp [dget, dset, h, ih]

theorem dget_dset_ne {β : Type} (m : Dict β) {k k' : Nat} (v : β) (h : k ≠ k') :
    dget (dset m k v) k' = dget m k' := by
  induction m with
  | nil => simp [dget, dset, h]
  | cons p t ih =>
    by_cases hp : p.1 = k
    · simp [dget, dset, hp, h]
    · by_cases hp' : p.1 = k'
      · simp [dget, dset, hp, hp', Ne.symm h]
      · simp [dget, dset, hp, hp', ih]

theorem dget_eq_none_iff {β : Type} (m : Dict β) (k : Nat) :
    dget m k = none ↔ k ∉ dkeys m := by
  induction m with
  | nil => simp [dget, dkeys]
  | cons p t ih =>
    by_cases h : p.1 = k
    · simp [dget, dkeys, h]
    · simp [dget, dkeys, h, ih, Ne.symm h]

theorem dget_isSome_of_mem_dkeys {β : Type} {m : Dict β} {k : Nat}
    (h : k ∈ dkeys m) : ∃ v, dget m k = some v := by
  rcases hh : dget m k with _ | v
  · exact absurd ((dget_eq_none_iff m k).mp hh) (by simp [h])
  · exact ⟨v, rfl⟩

theorem dget_mem {β : Type} {m : Dict β} {k : Nat} {v : β}
    (h : dget m k = some v) : (k, v) ∈ m := by
  induction m with
  | nil => simp [dget] at h
  | cons p t ih =>
    rcases p with ⟨k0, v0⟩
    by_cases hp : k0 = k
    · have h' : v0 = v := by simpa [dget, hp] using h
      subst h'; subst hp
      exact List.mem_cons_self _ _
    · have h' : dget t k = some v := by simpa [dget, hp] using h
      exact List.mem_cons_of_mem _ (ih h')

theorem mem_dkeys_of_dget {β : Type} {m : Dict β} {k : Nat} {v : β}
    (h : dget m k = some v) : k ∈ dkeys m := by
  have := dget_mem h
  simpa [dkeys] using List.mem_map_of_mem Prod.fst this

theorem dset_eq_append_of_none {β : Type} {m : Dict β} {k : Nat} (v : β)
    (h : dget m k = none) : dset m k v = m ++ [(k, v)] := by
  induction m with
  | nil => simp [dset]
  | cons p t ih =>
    by_cases hp : p.1 = k
    · simp [dget, hp] at h
    · simp [dget, hp] at h
      simp [dset, hp, ih h]

theorem dkeys_dset_of_some {β : Type} {m : Dict β} {k : Nat} (v w : β)
    (h : dget m k = some w) : dkeys (dset m k v) = dkeys m := by
  induction m with
  | nil => simp [dget] at h
  | cons p t ih =>
    by_cases hp : p.1 = k
    · simp [dset, dkeys, hp]
    · simp [dget, hp] at h
      have hi : dkeys (dset t k v) = dkeys t := ih h
      simp only [dkeys, List.map_cons] at hi ⊢
      simp [dset, hp, hi]

theorem length_dset_of_some {β : Type} {m : Dict β} {k : Nat} (v w : β)
    (h : dget m k = some w) : (dset m k v).length = m.length := by
  induction m with
  | nil => simp [dget] at h
  | cons p t ih =>
    by_cases hp : p.1 = k
    · simp [dset, hp]
    · simp [dget, hp] at h
      simp [dset, hp, ih h]

theorem length_dset_of_none {β : Type} {m : Dict β} {k : Nat} (v : β)
    (h : dget m k = none) : (dset m k v).length = m.length + 1 := by
  rw [dset_eq_append_of_none v h]
  simp

theorem mem_dset {β : Type} {m : Dict β} {k : Nat} {v : β} {p : Nat × β}
    (h : p ∈ dset m k v) : p ∈ m ∨ p = (k, v) := by
  induction m with
  | nil => simpa [dset] using h
  | cons q t ih =>
    by_cases hq : q.1 = k
    · simp [dset, hq] at h
      rcases h with h | h
      · right; simp [h]
      · left; exact List.mem_cons_of_mem _ h
    · simp [dset, hq] at h
      rcases h with h | h
      · left; simp [h]
      · rcases ih h with h' | h'
        · left; exact List.mem_cons_of_mem _ h'
        · right; exact h'

theorem nodup_dkeys_dset {β : Type} {m : Dict β} {k : Nat} (v : β)
    (h : (dkeys m).Nodup) : (dkeys (dset m k v)).Nodup := by
  rcases hh : dget m k with _ | w
  · rw [dset_eq_append_of_none v hh]
    have hk : k ∉ dkeys m := (dget_eq_none_iff m k).mp hh
    simp only [dkeys, List.map_append, List.map_cons, List.map_nil]
    rw [List.nodup_append]
    exact ⟨h, List.nodup_singleton k, by simpa [dkeys, List.disjoint_singleton] using hk⟩
  · rw [dkeys_dset_of_some v w hh]; exact h

theorem dget_of_mem {β : Type} {m : Dict β} {k : Nat} {v : β}
    (hm : (dkeys m).Nodup) (h : (k, v) ∈ m) : dget m k = some v := by
  induction m with
  | nil => simp at h
  | cons p t ih =>
    rcases p with ⟨k0, v0⟩
    simp only [dkeys, List.map_cons, List.nodup_cons] at hm
    rcases List.mem_cons.mp h with he | hm'
    · cases he
      simp [dget]
    · by_cases hk : k0 = k
      · exact absurd (by simpa [dkeys] using List.mem_map_of_mem Prod.fst hm')
          (hk ▸ hm.1)
      · simpa [dget, hk] using ih hm.2 hm'

/-! ### Entry-list lemmas -/

theorem length_entriesD (m : Dict (Dict Aresta)) :
    (entriesD m).length = (m.map (fun p => p.2.length)).sum := by
  induction m with
  | nil => simp [entriesD]
  | cons p t ih => simp [entriesD, ih]

theorem mem_entriesD {m : Dict (Dict Aresta)} {x y : Nat} {a : Aresta} :
    (x, y, a) ∈ entriesD m ↔ ∃ adj, (x, adj) ∈ m ∧ (y, a) ∈ adj := by
  induction m with
  | nil => simp [entriesD]
  | cons p tl ih =>
    rcases p with ⟨k, adj⟩
    simp only [entriesD, List.mem_append, List.mem_map, List.mem_cons, ih]
    constructor
    · rintro (⟨q, hq, he⟩ | ⟨adj', h1, h2⟩)
      · cases he
        exact ⟨adj, Or.inl rfl, hq⟩
      · exact ⟨adj', Or.inr h1, h2⟩
    · rintro ⟨adj', (he | hm), h2⟩
      · cases he
        exact Or.inl ⟨(y, a), h2, rfl⟩
      · exact Or.inr ⟨adj', hm, h2⟩

theorem lk_eq_some_iff {m : Dict (Dict Aresta)} (hm : (dkeys m).Nodup)
    (hin : ∀ p ∈ m, (dkeys p.2).Nodup) {x y : Nat} {a : Aresta} :
    lk m x y = some a ↔ (x, y, a) ∈ entriesD m := by
  constructor
  · intro h
    rcases hh : dget m x with _ | adj
    · simp [lk, hh] at h
    · simp only [lk, hh] at h
      exact mem_entriesD.mpr ⟨adj, dget_mem hh, dget_mem h⟩
  · intro h
    obtain ⟨adj, h1, h2⟩ := mem_entriesD.mp h
    have hx : dget m x = some adj := dget_of_mem hm h1
    have hy : dget adj y = some a := dget_of_mem (hin _ h1) h2
    simp [lk, hx, hy]

theorem nodup_entriesD {m : Dict (Dict Aresta)} (hm : (dkeys m).Nodup)
    (hin : ∀ p ∈ m, (dkeys p.2).Nodup) : (entriesD m).Nodup := by
  induction m with
  | nil => simp [entriesD]
  | cons p t ih =>
    rcases p with ⟨k, adj⟩
    simp only [dkeys, List.map_cons, List.nodup_cons] at hm
    simp only [entriesD]
    rw [List.nodup_append]
    refine ⟨?_, ih hm.2 (fun q hq => hin q (List.mem_cons_of_mem _ hq)), ?_⟩
    · have hadj : adj.Nodup := by
        have := hin (k, adj) (List.mem_cons_self _ _)
        exact List.Nodup.of_map Prod.fst this
      exact hadj.map (fun q q' hqq => by
        cases q; cases q'
        simpa using hqq)
    · intro el hel hcon
      obtain ⟨q, _, rfl⟩ := List.mem_map.mp hel
      rcases q with ⟨y, a⟩
      obtain ⟨adj', h1, _⟩ := mem_entriesD.mp hcon
      exact hm.1 (by simpa [dkeys] using List.mem_map_of_mem Prod.fst h1)

/-! ### The `arestas` fold -/

theorem arestas_eq_foldE_aux :
    ∀ (m : Dict (Dict Aresta)) (res : List Aresta),
      m.foldl
        (fun res p =>
          p.2.foldl
            (fun res q =>
              if res.any (fun b => pyEqAresta b q.2) then res else res ++ [q.2])
            res)
        res = foldE res (entriesD m) := by
  intro m
  induction m with
  | nil => intro res; simp [entriesD, foldE]
  | cons p t ih =>
    intro res
    rcases p with ⟨k, adj⟩
    simp only [List.foldl_cons, entriesD, foldE, List.foldl_append, List.foldl_map]
    rw [ih]
    rfl

theorem arestas_eq_foldE (g : Grafo) : g.arestas = foldE [] (entriesD g.saida) :=
  arestas_eq_foldE_aux g.saida []

theorem foldE_cons (res : List Aresta) (t : Nat × Nat × Aresta)
    (l : List (Nat × Nat × Aresta)) :
    foldE res (t :: l) =
      foldE (if res.any (fun b => pyEqAresta b t.2.2) then res else res ++ [t.2.2]) l :=
  rfl

theorem foldE_spec :
    ∀ (l : List (Nat × Nat × Aresta)) (res : List Aresta),
      (res.map Aresta.eid).Nodup →
      ((foldE res l).map Aresta.eid).Nodup ∧
      ((foldE res l).map Aresta.eid).toFinset =
        (res.map Aresta.eid).toFinset ∪ (l.map eidOf).toFinset := by
  intro l
  induction l with
  | nil => intro res h; simp [foldE, h]
  | cons t l ih =>
    intro res h
    by_cases hany : res.any (fun b => pyEqAresta b t.2.2) = true
    · have hstep : foldE res (t :: l) = foldE res l := by
        rw [foldE_cons, if_pos hany]
      obtain ⟨h1, h2⟩ := ih res h
      refine ⟨hstep ▸ h1, ?_⟩
      have hmem : t.2.2.eid ∈ res.map Aresta.eid := by
        obtain ⟨b, hb, hbe⟩ := List.any_eq_true.mp hany
        have hbt : b.eid = t.2.2.eid := by simpa [pyEqAresta] using hbe
        exact hbt ▸ List.mem_map_of_mem Aresta.eid hb
      rw [hstep, h2]
      ext n
      simp only [Finset.mem_union, List.mem_toFinset, List.map_cons, List.mem_cons]
      constructor
      · rintro (hn | hn)
        · exact Or.inl hn
        · exact Or.inr (Or.inr hn)
      · rintro (hn | hn | hn)
        · exact Or.inl hn
        · exact Or.inl (hn ▸ hmem)
        · exact Or.inr hn
    · have hstep : foldE res (t :: l) = foldE (res ++ [t.2.2]) l := by
        rw [foldE_cons, if_neg hany]
      have hnew : ∀ b ∈ res, b.eid ≠ t.2.2.eid := by
        intro b hb
        have hb' := List.any_eq_false.mp (by simpa using hany) b hb
        simpa [pyEqAresta] using hb'
      have hres' : ((res ++ [t.2.2]).map Aresta.eid).Nodup := by
        simp only [List.map_append, List.map_cons, List.map_nil]
        rw [List.nodup_append]
        refine ⟨h, List.nodup_singleton _, ?_⟩
        intro n hn
        simp only [List.mem_singleton]
        obtain ⟨b, hb, rfl⟩ := List.mem_map.mp hn
        simpa using hnew b hb
      obtain ⟨h1, h2⟩ := ih (res ++ [t.2.2]) hres'
      refine ⟨hstep ▸ h1, ?_⟩
      rw [hstep, h2]
      ext n
      simp only [Finset.mem_union, List.mem_toFinset, List.map_append, List.map_cons,
        List.mem_append, List.mem_cons, List.map_nil, List.mem_singleton]
      have he : eidOf t = t.2.2.eid := rfl
      rw [he]
      tauto

theorem arestas_length_eq_card (g : Grafo) :
    (g.arestas).length = ((entriesD g.saida).map eidOf).toFinset.card := by
  rw [arestas_eq_foldE]
  obtain ⟨h1, h2⟩ := foldE_spec (entriesD g.saida) [] (by simp)
  have hset : ((foldE [] (entriesD g.saida)).map Aresta.eid).toFinset =
      ((entriesD g.saida).map eidOf).toFinset := by
    rw [h2]; simp
  calc (foldE [] (entriesD g.saida)).length
      = ((foldE [] (entriesD g.saida)).map Aresta.eid).length := by simp
    _ = ((foldE [] (entriesD g.saida)).map Aresta.eid).toFinset.card :=
        (List.toFinset_card_of_nodup h1).symm
    _ = ((entriesD g.saida).map eidOf).toFinset.card := by rw [hset]

/-! ### Counting lemmas -/

theorem toFinset_map_eq_image (l : List (Nat × Nat × Aresta)) :
    (l.map eidOf).toFinset = l.toFinset.image eidOf := by
  ext n
  simp [List.mem_toFinset, Finset.mem_image]

theorem swapT_swapT (t : Nat × Nat × Aresta) : swapT (swapT t) = t := rfl

theorem pairCount :
    ∀ (n : Nat) (F : Finset (Nat × Nat × Aresta)),
      F.card = n →
      (∀ t ∈ F, swapT t ∈ F) →
      (∀ t ∈ F, t.1 ≠ t.2.1) →
      (∀ t ∈ F, ∀ s ∈ F, (t.2.2 : Aresta).eid = s.2.2.eid → t.2.2 = s.2.2) →
      (∀ t ∈ F, ((t.2.2 : Aresta).origem.vid = t.1 ∧ t.2.2.destino.vid = t.2.1) ∨
                (t.2.2.origem.vid = t.2.1 ∧ t.2.2.destino.vid = t.1)) →
      F.card = 2 * (F.image eidOf).card := by
  intro n
  induction n using Nat.strong_induction_on with
  | _ n ih =>
    intro F hcard hswap hne hinj hends
    rcases F.eq_empty_or_nonempty with rfl | ⟨t, ht⟩
    · simp
    · have ht' : swapT t ∈ F := hswap t ht
      have htne : t ≠ swapT t := by
        intro he
        exact hne t ht (congrArg Prod.fst he)
      set F' : Finset (Nat × Nat × Aresta) := (F.erase t).erase (swapT t) with hF'
      have hmemF' : ∀ s, s ∈ F' ↔ s ≠ swapT t ∧ s ≠ t ∧ s ∈ F := by
        intro s
        simp [hF', Finset.mem_erase, and_assoc]
      have hswapmem : swapT t ∈ F.erase t := Finset.mem_erase.mpr ⟨Ne.symm htne, ht'⟩
      have hcard' : F'.card + 2 = F.card := by
        rw [hF', Finset.card_erase_of_mem hswapmem, Finset.card_erase_of_mem ht]
        have h1 : 1 ≤ F.card := Finset.card_pos.mpr ⟨t, ht⟩
        have h2 : 1 ≤ F.card - 1 := by
          have : 1 ≤ (F.erase t).card := Finset.card_pos.mpr ⟨swapT t, hswapmem⟩
          simpa [Finset.card_erase_of_mem ht] using this
        omega
      have hlt : F'.card < n := by omega
      have hswap' : ∀ s ∈ F', swapT s ∈ F' := by
        intro s hs
        obtain ⟨hs1, hs2, hs3⟩ := (hmemF' s).mp hs
        refine (hmemF' (swapT s)).mpr ⟨?_, ?_, hswap s hs3⟩
        · intro he
          exact hs2 (by rw [← swapT_swapT s, he, swapT_swapT])
        · intro he
          exact hs1 (by rw [← swapT_swapT s, he])
      have hsub : ∀ s ∈ F', s ∈ F := fun s hs => ((hmemF' s).mp hs).2.2
      have hcount' : F'.card = 2 * (F'.image eidOf).card :=
        ih F'.card hlt F' rfl hswap'
          (fun s hs => hne s (hsub s hs))
          (fun s hs r hr => hinj s (hsub s hs) r (hsub r hr))
          (fun s hs => hends s (hsub s hs))
      have himage : F.image eidOf = insert (eidOf t) (F'.image eidOf) := by
        ext n'
        simp only [Finset.mem_image, Finset.mem_insert]
        constructor
        · rintro ⟨s, hs, rfl⟩
          by_cases hst : s = t
          · exact Or.inl (by rw [hst])
          by_cases hst' : s = swapT t
          · exact Or.inl (by rw [hst']; rfl)
          · exact Or.inr ⟨s, (hmemF' s).mpr ⟨hst', hst, hs⟩, rfl⟩
        · rintro (rfl | ⟨s, hs, rfl⟩)
          · exact ⟨t, ht, rfl⟩
          · exact ⟨s, hsub s hs, rfl⟩
      have hnotmem : eidOf t ∉ F'.image eidOf := by
        intro hmem
        obtain ⟨s, hs, he⟩ := Finset.mem_image.mp hmem
        have hsa : s.2.2 = t.2.2 := hinj s (hsub s hs) t ht he
        obtain ⟨hs1, hs2, hs3⟩ := (hmemF' s).mp hs
        have hts := hends t ht
        have hss := hends s hs3
        rw [hsa] at hss
        have hst : s = t ∨ s = swapT t := by
          rcases hss with ⟨e1, e2⟩ | ⟨e1, e2⟩ <;> rcases hts with ⟨f1, f2⟩ | ⟨f1, f2⟩
          · left
            have h1 : s.1 = t.1 := by rw [← e1, f1]
            have h2 : s.2.1 = t.2.1 := by rw [← e2, f2]
            rw [Prod.ext_iff, Prod.ext_iff]
            exact ⟨h1, h2, hsa⟩
          · right
            have h1 : s.1 = t.2.1 := by rw [← e1, f1]
            have h2 : s.2.1 = t.1 := by rw [← e2, f2]
            rw [Prod.ext_iff, Prod.ext_iff]
            exact ⟨h1, h2, hsa⟩
          · right
            have h1 : s.1 = t.2.1 := by rw [← e2, f2]
            have h2 : s.2.1 = t.1 := by rw [← e1, f1]
            rw [Prod.ext_iff, Prod.ext_iff]
            exact ⟨h1, h2, hsa⟩
          · left
            have h1 : s.1 = t.1 := by rw [← e2, f2]
            have h2 : s.2.1 = t.2.1 := by rw [← e1, f1]
            rw [Prod.ext_iff, Prod.ext_iff]
            exact ⟨h1, h2, hsa⟩
        rcases hst with rfl | rfl
        · exact hs2 rfl
        · exact hs1 rfl
      rw [himage, Finset.card_insert_of_not_mem hnotmem, ← hcard', hcount']
      ring

/-! ### Characterizations of the mutating operations -/

theorem runOp_insV (s : BuildState) (x : Elem) :
    runOp s (.insV x) =
      ⟨⟨s.g.direcionado, dset s.g.saida s.g.counter [],
        if s.g.direcionado then dset s.g.entradaD s.g.counter [] else s.g.entradaD,
        s.g.counter + 1⟩,
      s.vs ++ [⟨s.g.counter, x⟩]⟩ := by
  simp only [runOp, Grafo.inserir_vertice, Grafo.e_direcionado]

theorem runOp_insE_valid (s : BuildState) (i j : Nat) (x : Elem) {u v : Vertice}
    (hi : s.vs.get? i = some u) (hj : s.vs.get? j = some v) :
    runOp s (.insE i j x) = ⟨(s.g.inserir_aresta u v x).1, s.vs⟩ := by
  simp only [runOp, hi, hj]

theorem inserir_aresta_undir (g : Grafo) (hd : g.direcionado = false) (u v : Vertice)
    (x : Elem) {adjU : Dict Aresta} (hu : dget g.saida u.vid = some adjU)
    (hv : v.vid ∈ dkeys g.saida) :
    ∃ adjV,
      dget (dset g.saida u.vid (dset adjU v.vid ⟨g.counter, u, v, x⟩)) v.vid = some adjV ∧
      g.inserir_aresta u v x =
        (⟨g.direcionado,
          dset (dset g.saida u.vid (dset adjU v.vid ⟨g.counter, u, v, x⟩)) v.vid
            (dset adjV u.vid ⟨g.counter, u, v, x⟩),
          g.entradaD, g.counter + 1⟩,
        .ok ⟨g.counter, u, v, x⟩) := by
  have hv' : v.vid ∈ dkeys (dset g.saida u.vid (dset adjU v.vid ⟨g.counter, u, v, x⟩)) := by
    rw [dkeys_dset_of_some _ adjU hu]; exact hv
  obtain ⟨adjV, hav⟩ := dget_isSome_of_mem_dkeys hv'
  refine ⟨adjV, hav, ?_⟩
  simp only [Grafo.inserir_aresta, Grafo.entrada, Grafo.setEntrada, hd, hu, hav,
    if_false, Bool.false_eq_true]

theorem inserir_aresta_dir (g : Grafo) (hd : g.direcionado = true) (u v : Vertice)
    (x : Elem) {adjU adjV : Dict Aresta} (hu : dget g.saida u.vid = some adjU)
    (hv : dget g.entradaD v.vid = some adjV) :
    g.inserir_aresta u v x =
      (⟨g.direcionado, dset g.saida u.vid (dset adjU v.vid ⟨g.counter, u, v, x⟩),
        dset g.entradaD v.vid (dset adjV u.vid ⟨g.counter, u, v, x⟩), g.counter + 1⟩,
      .ok ⟨g.counter, u, v, x⟩) := by
  simp only [Grafo.inserir_aresta, Grafo.entrada, Grafo.setEntrada, hd, hu, hv, if_true]

theorem inserir_aresta_dir_fail (g : Grafo) (hd : g.direcionado = true) (u v : Vertice)
    (x : Elem) {adjU : Dict Aresta} (hu : dget g.saida u.vid = some adjU)
    (hv : dget g.entradaD v.vid = none) :
    g.inserir_aresta u v x =
      (⟨g.direcionado, dset g.saida u.vid (dset adjU v.vid ⟨g.counter, u, v, x⟩),
        g.entradaD, g.counter + 1⟩, .error ()) := by
  simp only [Grafo.inserir_aresta, Grafo.entrada, hd, hu, hv, if_true]

/-! ### Lookup after an insert -/

theorem lk_some {m : Dict (Dict Aresta)} {x : Nat} {adj : Dict Aresta}
    (h : dget m x = some adj) (y : Nat) : lk m x y = dget adj y := by
  simp [lk, h]

theorem lk_none {m : Dict (Dict Aresta)} {x : Nat}
    (h : dget m x = none) (y : Nat) : lk m x y = none := by
  simp [lk, h]

theorem lk_dset_nil (m : Dict (Dict Aresta)) (c : Nat) (x y : Nat) :
    lk (dset m c []) x y = if x = c then none else lk m x y := by
  by_cases hx : x = c
  · have h2 : dget (dset m c []) x = some [] := by
      rw [hx]; exact dget_dset_self _ _ _
    rw [lk_some h2, if_pos hx]
    rfl
  · have h2 : dget (dset m c []) x = dget m x := dget_dset_ne _ _ (fun h => hx h.symm)
    rw [if_neg hx]
    rcases hh : dget m x with _ | adj
    · rw [lk_none (h2.trans hh), lk_none hh]
    · rw [lk_some (h2.trans hh), lk_some hh]

theorem lk_insert_dir {S : Dict (Dict Aresta)} {u v : Nat} {adjU : Dict Aresta}
    {a : Aresta} (hu : dget S u = some adjU) (x y : Nat) :
    lk (dset S u (dset adjU v a)) x y =
      if x = u ∧ y = v then some a else lk S x y := by
  by_cases hx : x = u
  · have h2 : dget (dset S u (dset adjU v a)) x = some (dset adjU v a) := by
      rw [hx]; exact dget_dset_self _ _ _
    rw [lk_some h2]
    by_cases hy : y = v
    · rw [hy, dget_dset_self, if_pos ⟨hx, rfl⟩]
    · rw [dget_dset_ne _ _ (fun h => hy h.symm), if_neg (fun h => hy h.2), hx,
        lk_some hu]
  · have h2 : dget (dset S u (dset adjU v a)) x = dget S x :=
      dget_dset_ne _ _ (fun h => hx h.symm)
    rw [if_neg (fun h => hx h.1)]
    rcases hh : dget S x with _ | adj
    · rw [lk_none (h2.trans hh), lk_none hh]
    · rw [lk_some (h2.trans hh), lk_some hh]

theorem lk_insert_undir {S : Dict (Dict Aresta)} {u v : Nat} {adjU adjV : Dict Aresta}
    {a : Aresta} (hu : dget S u = some adjU)
    (hav : dget (dset S u (dset adjU v a)) v = some adjV) (x y : Nat) :
    lk (dset (dset S u (dset adjU v a)) v (dset adjV u a)) x y =
      if (x = u ∧ y = v) ∨ (x = v ∧ y = u) then some a else lk S x y := by
  have hmid : ∀ x' y', lk (dset S u (dset adjU v a)) x' y' =
      if x' = u ∧ y' = v then some a else lk S x' y' := fun x' y' => lk_insert_dir hu x' y'
  have hF : ∀ y', dget adjV y' = if v = u ∧ y' = v then some a else lk S v y' := by
    intro y'
    have h1 : lk (dset S u (dset adjU v a)) v y' = dget adjV y' := lk_some hav y'
    rw [hmid v y'] at h1
    exact h1.symm
  by_cases hx : x = v
  · have h2 : dget (dset (dset S u (dset adjU v a)) v (dset adjV u a)) x =
        some (dset adjV u a) := by
      rw [hx]; exact dget_dset_self _ _ _
    rw [lk_some h2]
    by_cases hy : y = u
    · rw [hy, dget_dset_self, if_pos (Or.inr ⟨hx, rfl⟩)]
    · rw [dget_dset_ne _ _ (fun h => hy h.symm), hF y, hx]
      by_cases hc : v = u ∧ y = v
      · rw [if_pos hc, if_pos (Or.inl hc)]
      · rw [if_neg hc, if_neg (by rintro (h | h); exacts [hc h, hy h.2])]
  · have h2 : dget (dset (dset S u (dset adjU v a)) v (dset adjV u a)) x =
        dget (dset S u (dset adjU v a)) x := dget_dset_ne _ _ (fun h => hx h.symm)
    have h3 : lk (dset (dset S u (dset adjU v a)) v (dset adjV u a)) x y =
        lk (dset S u (dset adjU v a)) x y := by
      rcases hh : dget (dset S u (dset adjU v a)) x with _ | adj
      · rw [lk_none (h2.trans hh), lk_none hh]
      · rw [lk_some (h2.trans hh), lk_some hh]
    rw [h3, hmid x y]
    by_cases hc : x = u ∧ y = v
    · rw [if_pos hc, if_pos (Or.inl hc)]
    · rw [if_neg hc, if_neg (by rintro (h | h); exacts [hc h, hx h.1])]

/-! ### Invariant helper lemmas -/

theorem lk_elim {m : Dict (Dict Aresta)} {x y : Nat} {a : Aresta}
    (h : lk m x y = some a) :
    ∃ adj, dget m x = some adj ∧ dget adj y = some a := by
  rcases hh : dget m x with _ | adj
  · rw [lk_none hh] at h; cases h
  · rw [lk_some hh] at h
    exact ⟨adj, rfl, h⟩

theorem ite_some_elim {C : Prop} [Decidable C] {o : Option Aresta} {a b : Aresta}
    (h : (if C then some a else o) = some b) : (C ∧ b = a) ∨ (¬C ∧ o = some b) := by
  by_cases hc : C
  · rw [if_pos hc] at h
    exact Or.inl ⟨hc, (Option.some.inj h).symm⟩
  · rw [if_neg hc] at h
    exact Or.inr ⟨hc, h⟩

theorem eid_lt_of_lk {s : BuildState} (h : GInv s) {x y : Nat} {a : Aresta}
    (hl : lk s.g.saida x y = some a) : a.eid < s.g.counter := by
  obtain ⟨adj, h1, h2⟩ := lk_elim hl
  exact h.eidLt _ (dget_mem h1) _ (dget_mem h2)

theorem ends_of_lk {s : BuildState} (h : GInv s) {x y : Nat} {a : Aresta}
    (hl : lk s.g.saida x y = some a) :
    (a.origem.vid = x ∧ a.destino.vid = y) ∨ (a.origem.vid = y ∧ a.destino.vid = x) := by
  obtain ⟨adj, h1, h2⟩ := lk_elim hl
  exact h.ends _ (dget_mem h1) _ (dget_mem h2)

theorem counter_fresh {s : BuildState} (h : GInv s) :
    s.g.counter ∉ s.vs.map Vertice.vid := by
  intro hc
  obtain ⟨w, hw, hwc⟩ := List.mem_map.mp hc
  exact absurd (hwc ▸ h.vsLt w hw) (lt_irrefl s.g.counter)

theorem lk_none_right {s : BuildState} (h : GInv s) {c : Nat}
    (hc : c ∉ s.vs.map Vertice.vid) (y : Nat) : lk s.g.saida y c = none := by
  rcases hh : dget s.g.saida y with _ | adj
  · exact lk_none hh _
  · rw [lk_some hh]
    rcases h3 : dget adj c with _ | b
    · rfl
    · exact absurd (h.innerKeys _ (dget_mem hh) _ (dget_mem h3)) hc

theorem lkIn_none_right {s : BuildState} (h : GInv s) (hd : s.g.direcionado = true)
    {c : Nat} (hc : c ∉ s.vs.map Vertice.vid) (y : Nat) : lk s.g.entradaD y c = none := by
  rcases hh : dget s.g.entradaD y with _ | adj
  · exact lk_none hh _
  · rw [lk_some hh]
    rcases h3 : dget adj c with _ | b
    · rfl
    · exact absurd (h.innerKeysIn hd _ (dget_mem hh) _ (dget_mem h3)) hc

theorem dget_saida_of_mem_vs {s : BuildState} (h : GInv s) {u : Vertice}
    (hu : u ∈ s.vs) : ∃ adj, dget s.g.saida u.vid = some adj := by
  apply dget_isSome_of_mem_dkeys
  rw [h.keysEq]
  exact List.mem_map_of_mem _ hu

theorem dget_entrada_of_mem_vs {s : BuildState} (h : GInv s)
    (hd : s.g.direcionado = true) {v : Vertice} (hv : v ∈ s.vs) :
    ∃ adj, dget s.g.entradaD v.vid = some adj := by
  apply dget_isSome_of_mem_dkeys
  rw [h.keysEqIn hd]
  exact List.mem_map_of_mem _ hv

/-! ### Invariant preservation -/

theorem ginv_init (d : Bool) : GInv ⟨Grafo.init d, []⟩ := by
  refine ⟨?_, ?_, ?_, ?_, ?_, ?_, ?_, ?_, ?_, ?_, ?_, ?_, ?_⟩ <;>
    simp [Grafo.init, dkeys, lk, dget]

theorem ginv_insV {s : BuildState} (h : GInv s) (x : Elem) :
    GInv (runOp s (.insV x)) := by
  rw [runOp_insV]
  have hfresh : s.g.counter ∉ s.vs.map Vertice.vid := counter_fresh h
  have hnone : dget s.g.saida s.g.counter = none := by
    rw [dget_eq_none_iff, h.keysEq]; exact hfresh
  have happ : dset s.g.saida s.g.counter ([] : Dict Aresta) =
      s.g.saida ++ [(s.g.counter, [])] := dset_eq_append_of_none _ hnone
  have hvs' : (s.vs ++ [(⟨s.g.counter, x⟩ : Vertice)]).map Vertice.vid =
      s.vs.map Vertice.vid ++ [s.g.counter] := by simp
  refine ⟨?_, ?_, ?_, ?_, ?_, ?_, ?_, ?_, ?_, ?_, ?_, ?_, ?_⟩
  · -- vsNodup
    rw [hvs', List.nodup_append]
    refine ⟨h.vsNodup, List.nodup_singleton _, ?_⟩
    intro n hn hmem
    rw [List.mem_singleton] at hmem
    exact hfresh (hmem ▸ hn)
  · -- vsLt
    intro w hw
    rcases List.mem_append.mp hw with hw | hw
    · exact Nat.lt_succ_of_lt (h.vsLt w hw)
    · rw [List.mem_singleton] at hw
      rw [hw]
      exact Nat.lt_succ_self _
  · -- keysEq
    have hk := h.keysEq
    simp only [dkeys] at hk
    rw [happ, hvs']
    simp [dkeys, hk]
  · -- keysEqIn
    intro hd
    have hnoneIn : dget s.g.entradaD s.g.counter = none := by
      rw [dget_eq_none_iff, h.keysEqIn hd]; exact hfresh
    have hk := h.keysEqIn hd
    simp only [dkeys] at hk
    rw [if_pos hd, dset_eq_append_of_none _ hnoneIn, hvs']
    simp [dkeys, hk]
  · -- innerNodup
    intro p hp
    rw [happ] at hp
    rcases List.mem_append.mp hp with hp | hp
    · exact h.innerNodup p hp
    · rw [List.mem_singleton] at hp
      rw [hp]
      simp [dkeys]
  · -- innerKeys
    intro p hp q hq
    rw [happ] at hp
    rcases List.mem_append.mp hp with hp | hp
    · rw [hvs']
      exact List.mem_append_left _ (h.innerKeys p hp q hq)
    · rw [List.mem_singleton] at hp
      rw [hp] at hq
      simp at hq
  · -- innerKeysIn
    intro hd p hp q hq
    rw [if_pos hd] at hp
    have hnoneIn : dget s.g.entradaD s.g.counter = none := by
      rw [dget_eq_none_iff, h.keysEqIn hd]; exact hfresh
    rw [dset_eq_append_of_none _ hnoneIn] at hp
    rcases List.mem_append.mp hp with hp | hp
    · rw [hvs']
      exact List.mem_append_left _ (h.innerKeysIn hd p hp q hq)
    · rw [List.mem_singleton] at hp
      rw [hp] at hq
      simp at hq
  · -- eidLt
    intro p hp q hq
    rw [happ] at hp
    rcases List.mem_append.mp hp with hp | hp
    · exact Nat.lt_succ_of_lt (h.eidLt p hp q hq)
    · rw [List.mem_singleton] at hp
      rw [hp] at hq
      simp at hq
  · -- ends
    intro p hp q hq
    rw [happ] at hp
    rcases List.mem_append.mp hp with hp | hp
    · exact h.ends p hp q hq
    · rw [List.mem_singleton] at hp
      rw [hp] at hq
      simp at hq
  · -- endsD
    intro hd p hp q hq
    rw [happ] at hp
    rcases List.mem_append.mp hp with hp | hp
    · exact h.endsD hd p hp q hq
    · rw [List.mem_singleton] at hp
      rw [hp] at hq
      simp at hq
  · -- sym
    intro hd x' y'
    rw [lk_dset_nil, lk_dset_nil]
    by_cases hx : x' = s.g.counter
    · by_cases hy : y' = s.g.counter
      · rw [if_pos hx, if_pos hy]
      · rw [if_pos hx, if_neg hy, hx, lk_none_right h hfresh y']
    · by_cases hy : y' = s.g.counter
      · rw [if_neg hx, if_pos hy, hy, lk_none_right h hfresh x']
      · rw [if_neg hx, if_neg hy]
        exact h.sym hd x' y'
  · -- cross
    intro hd x' y'
    rw [if_pos hd, lk_dset_nil, lk_dset_nil]
    by_cases hx : x' = s.g.counter
    · by_cases hy : y' = s.g.counter
      · rw [if_pos hx, if_pos hy]
      · rw [if_pos hx, if_neg hy, hx, lkIn_none_right h hd hfresh y']
    · by_cases hy : y' = s.g.counter
      · rw [if_neg hx, if_pos hy, hy, lk_none_right h hfresh x']
      · rw [if_neg hx, if_neg hy]
        exact h.cross hd x' y'
  · -- eidInj
    intro x' y' a x'' y'' a' h1 h2 he
    rw [lk_dset_nil] at h1 h2
    by_cases hx : x' = s.g.counter
    · rw [if_pos hx] at h1; cases h1
    by_cases hx' : x'' = s.g.counter
    · rw [if_pos hx'] at h2; cases h2
    rw [if_neg hx] at h1
    rw [if_neg hx'] at h2
    exact h.eidInj x' y' a x'' y'' a' h1 h2 he

theorem ginv_insE_dir {s : BuildState} (h : GInv s) (i j : Nat) (x : Elem)
    {u v : Vertice} (hi : s.vs.get? i = some u) (hj : s.vs.get? j = some v)
    (hd : s.g.direcionado = true) : GInv (runOp s (.insE i j x)) := by
  have hu_mem : u ∈ s.vs := List.get?_mem hi
  have hv_mem : v ∈ s.vs := List.get?_mem hj
  have huv : u.vid ∈ s.vs.map Vertice.vid := List.mem_map_of_mem _ hu_mem
  have hvv : v.vid ∈ s.vs.map Vertice.vid := List.mem_map_of_mem _ hv_mem
  obtain ⟨adjU, hu⟩ := dget_saida_of_mem_vs h hu_mem
  have hadjU_mem : (u.vid, adjU) ∈ s.g.saida := dget_mem hu
  obtain ⟨adjV, hv⟩ := dget_entrada_of_mem_vs h hd hv_mem
  have hadjV_mem : (v.vid, adjV) ∈ s.g.entradaD := dget_mem hv
  rw [runOp_insE_valid s i j x hi hj, inserir_aresta_dir s.g hd u v x hu hv]
  show GInv
    ⟨⟨s.g.direcionado, dset s.g.saida u.vid (dset adjU v.vid ⟨s.g.counter, u, v, x⟩),
      dset s.g.entradaD v.vid (dset adjV u.vid ⟨s.g.counter, u, v, x⟩),
      s.g.counter + 1⟩, s.vs⟩
  have haeid : (⟨s.g.counter, u, v, x⟩ : Aresta).eid = s.g.counter := rfl
  refine ⟨h.vsNodup, fun w hw => Nat.lt_succ_of_lt (h.vsLt w hw), ?_, ?_, ?_, ?_, ?_,
    ?_, ?_, ?_, ?_, ?_, ?_⟩
  · -- keysEq
    rw [dkeys_dset_of_some _ _ hu]
    exact h.keysEq
  · -- keysEqIn
    intro _
    rw [dkeys_dset_of_some _ _ hv]
    exact h.keysEqIn hd
  · -- innerNodup
    intro p hp
    rcases mem_dset hp with hp' | rfl
    · exact h.innerNodup p hp'
    · exact nodup_dkeys_dset _ (h.innerNodup _ hadjU_mem)
  · -- innerKeys
    intro p hp q hq
    rcases mem_dset hp with hp' | rfl
    · exact h.innerKeys p hp' q hq
    · rcases mem_dset hq with hq' | rfl
      · exact h.innerKeys _ hadjU_mem q hq'
      · exact hvv
  · -- innerKeysIn
    intro _ p hp q hq
    rcases mem_dset hp with hp' | rfl
    · exact h.innerKeysIn hd p hp' q hq
    · rcases mem_dset hq with hq' | rfl
      · exact h.innerKeysIn hd _ hadjV_mem q hq'
      · exact huv
  · -- eidLt
    intro p hp q hq
    rcases mem_dset hp with hp' | rfl
    · exact Nat.lt_succ_of_lt (h.eidLt p hp' q hq)
    · rcases mem_dset hq with hq' | rfl
      · exact Nat.lt_succ_of_lt (h.eidLt _ hadjU_mem q hq')
      · exact Nat.lt_succ_self _
  · -- ends
    intro p hp q hq
    rcases mem_dset hp with hp' | rfl
    · exact h.ends p hp' q hq
    · rcases mem_dset hq with hq' | rfl
      · exact h.ends _ hadjU_mem q hq'
      · exact Or.inl ⟨rfl, rfl⟩
  · -- endsD
    intro _ p hp q hq
    rcases mem_dset hp with hp' | rfl
    · exact h.endsD hd p hp' q hq
    · rcases mem_dset hq with hq' | rfl
      · exact h.endsD hd _ hadjU_mem q hq'
      · exact ⟨rfl, rfl⟩
  · -- sym
    intro hf
    rw [hd] at hf
    cases hf
  · -- cross
    intro _ x' y'
    rw [lk_insert_dir hu x' y', lk_insert_dir hv y' x']
    by_cases hc : x' = u.vid ∧ y' = v.vid
    · rw [if_pos hc, if_pos ⟨hc.2, hc.1⟩]
    · rw [if_neg hc, if_neg (fun hc' => hc ⟨hc'.2, hc'.1⟩)]
      exact h.cross hd x' y'
  · -- eidInj
    intro x1 y1 a1 x2 y2 a2 h1 h2 he
    rw [lk_insert_dir hu x1 y1] at h1
    rw [lk_insert_dir hu x2 y2] at h2
    rcases ite_some_elim h1 with ⟨_, rfl⟩ | ⟨_, h1'⟩
    · rcases ite_some_elim h2 with ⟨_, rfl⟩ | ⟨_, h2'⟩
      · rfl
      · have hlt := eid_lt_of_lk h h2'
        rw [← he, haeid] at hlt
        exact absurd hlt (lt_irrefl _)
    · rcases ite_some_elim h2 with ⟨_, rfl⟩ | ⟨_, h2'⟩
      · have hlt := eid_lt_of_lk h h1'
        rw [he, haeid] at hlt
        exact absurd hlt (lt_irrefl _)
      · exact h.eidInj x1 y1 a1 x2 y2 a2 h1' h2' he

theorem ginv_insE_undir {s : BuildState} (h : GInv s) (i j : Nat) (x : Elem)
    {u v : Vertice} (hi : s.vs.get? i = some u) (hj : s.vs.get? j = some v)
    (hd : s.g.direcionado = false) : GInv (runOp s (.insE i j x)) := by
  have hu_mem : u ∈ s.vs := List.get?_mem hi
  have hv_mem : v ∈ s.vs := List.get?_mem hj
  have huv : u.vid ∈ s.vs.map Vertice.vid := List.mem_map_of_mem _ hu_mem
  have hvv : v.vid ∈ s.vs.map Vertice.vid := List.mem_map_of_mem _ hv_mem
  obtain ⟨adjU, hu⟩ := dget_saida_of_mem_vs h hu_mem
  have hadjU_mem : (u.vid, adjU) ∈ s.g.saida := dget_mem hu
  have hvk : v.vid ∈ dkeys s.g.saida := by rw [h.keysEq]; exact hvv
  obtain ⟨adjV, hav, heq⟩ := inserir_aresta_undir s.g hd u v x hu hvk
  rw [runOp_insE_valid s i j x hi hj, heq]
  show GInv
    ⟨⟨s.g.direcionado,
      dset (dset s.g.saida u.vid (dset adjU v.vid ⟨s.g.counter, u, v, x⟩)) v.vid
        (dset adjV u.vid ⟨s.g.counter, u, v, x⟩),
      s.g.entradaD, s.g.counter + 1⟩, s.vs⟩
  have haeid : (⟨s.g.counter, u, v, x⟩ : Aresta).eid = s.g.counter := rfl
  have hadjV_cases : (u.vid = v.vid ∧ adjV = dset adjU v.vid ⟨s.g.counter, u, v, x⟩) ∨
      ((v.vid, adjV) ∈ s.g.saida ∧ (dkeys adjV).Nodup) := by
    by_cases huv' : u.vid = v.vid
    · left
      refine ⟨huv', ?_⟩
      have hself : dget (dset s.g.saida u.vid (dset adjU v.vid ⟨s.g.counter, u, v, x⟩))
          v.vid = some (dset adjU v.vid ⟨s.g.counter, u, v, x⟩) := by
        rw [← huv']
        exact dget_dset_self _ _ _
      exact Option.some.inj (hav.symm.trans hself)
    · right
      have hne : dget (dset s.g.saida u.vid (dset adjU v.vid ⟨s.g.counter, u, v, x⟩))
          v.vid = dget s.g.saida v.vid := dget_dset_ne _ _ huv'
      have hav' : dget s.g.saida v.vid = some adjV := hne.symm.trans hav
      exact ⟨dget_mem hav', h.innerNodup _ (dget_mem hav')⟩
  have hq_adjV : ∀ q ∈ adjV,
      (∃ p', p' ∈ s.g.saida ∧ p'.1 = v.vid ∧ q ∈ p'.2) ∨
      (q = (v.vid, (⟨s.g.counter, u, v, x⟩ : Aresta)) ∧ u.vid = v.vid) := by
    intro q hq
    rcases hadjV_cases with ⟨huv', rfl⟩ | ⟨hmem, _⟩
    · rcases mem_dset hq with hq' | rfl
      · exact Or.inl ⟨(u.vid, adjU), hadjU_mem, huv', hq'⟩
      · exact Or.inr ⟨rfl, huv'⟩
    · exact Or.inl ⟨(v.vid, adjV), hmem, rfl, hq⟩
  have hentry : ∀ p ∈ dset (dset s.g.saida u.vid
        (dset adjU v.vid ⟨s.g.counter, u, v, x⟩)) v.vid
        (dset adjV u.vid ⟨s.g.counter, u, v, x⟩), ∀ q ∈ p.2,
      (∃ p', p' ∈ s.g.saida ∧ p'.1 = p.1 ∧ q ∈ p'.2) ∨
      (q = (v.vid, (⟨s.g.counter, u, v, x⟩ : Aresta)) ∧ p.1 = u.vid) ∨
      (q = (u.vid, (⟨s.g.counter, u, v, x⟩ : Aresta)) ∧ p.1 = v.vid) := by
    intro p hp q hq
    rcases mem_dset hp with hp1 | rfl
    · rcases mem_dset hp1 with hp2 | rfl
      · exact Or.inl ⟨p, hp2, rfl, hq⟩
      · rcases mem_dset hq with hq' | rfl
        · exact Or.inl ⟨(u.vid, adjU), hadjU_mem, rfl, hq'⟩
        · exact Or.inr (Or.inl ⟨rfl, rfl⟩)
    · rcases mem_dset hq with hq' | rfl
      · rcases hq_adjV q hq' with ⟨p', hp', hk, hqp⟩ | ⟨rfl, huv2⟩
        · exact Or.inl ⟨p', hp', hk, hqp⟩
        · exact Or.inr (Or.inl ⟨rfl, huv2.symm⟩)
      · exact Or.inr (Or.inr ⟨rfl, rfl⟩)
  refine ⟨h.vsNodup, fun w hw => Nat.lt_succ_of_lt (h.vsLt w hw), ?_, ?_, ?_, ?_, ?_,
    ?_, ?_, ?_, ?_, ?_, ?_⟩
  · -- keysEq
    rw [dkeys_dset_of_some _ _ hav, dkeys_dset_of_some _ _ hu]
    exact h.keysEq
  · -- keysEqIn
    intro hf
    rw [hd] at hf
    cases hf
  · -- innerNodup
    intro p hp
    rcases mem_dset hp with hp1 | rfl
    · rcases mem_dset hp1 with hp2 | rfl
      · exact h.innerNodup p hp2
      · exact nodup_dkeys_dset _ (h.innerNodup _ hadjU_mem)
    · refine nodup_dkeys_dset _ ?_
      rcases hadjV_cases with ⟨_, rfl⟩ | ⟨_, hnd⟩
      · exact nodup_dkeys_dset _ (h.innerNodup _ hadjU_mem)
      · exact hnd
  · -- innerKeys
    intro p hp q hq
    rcases hentry p hp q hq with ⟨p', hp', _, hqp⟩ | ⟨rfl, _⟩ | ⟨rfl, _⟩
    · exact h.innerKeys p' hp' q hqp
    · exact hvv
    · exact huv
  · -- innerKeysIn
    intro hf
    rw [hd] at hf
    cases hf
  · -- eidLt
    intro p hp q hq
    rcases hentry p hp q hq with ⟨p', hp', _, hqp⟩ | ⟨rfl, _⟩ | ⟨rfl, _⟩
    · exact Nat.lt_succ_of_lt (h.eidLt p' hp' q hqp)
    · exact Nat.lt_succ_self _
    · exact Nat.lt_succ_self _
  · -- ends
    intro p hp q hq
    rcases hentry p hp q hq with ⟨p', hp', hk, hqp⟩ | ⟨rfl, hc⟩ | ⟨rfl, hc⟩
    · rcases h.ends p' hp' q hqp with ⟨e1, e2⟩ | ⟨e1, e2⟩
      · exact Or.inl ⟨hk ▸ e1, e2⟩
      · exact Or.inr ⟨e1, hk ▸ e2⟩
    · exact Or.inl ⟨hc.symm, rfl⟩
    · exact Or.inr ⟨rfl, hc.symm⟩
  · -- endsD
    intro hf
    rw [hd] at hf
    cases hf
  · -- sym
    intro _ x' y'
    rw [lk_insert_undir hu hav x' y', lk_insert_undir hu hav y' x']
    by_cases hc : (x' = u.vid ∧ y' = v.vid) ∨ (x' = v.vid ∧ y' = u.vid)
    · have hc' : (y' = u.vid ∧ x' = v.vid) ∨ (y' = v.vid ∧ x' = u.vid) := by
        rcases hc with ⟨h1, h2⟩ | ⟨h1, h2⟩
        · exact Or.inr ⟨h2, h1⟩
        · exact Or.inl ⟨h2, h1⟩
      rw [if_pos hc, if_pos hc']
    · have hc' : ¬((y' = u.vid ∧ x' = v.vid) ∨ (y' = v.vid ∧ x' = u.vid)) := by
        rintro (⟨h1, h2⟩ | ⟨h1, h2⟩)
        · exact hc (Or.inr ⟨h2, h1⟩)
        · exact hc (Or.inl ⟨h2, h1⟩)
      rw [if_neg hc, if_neg hc']
      exact h.sym hd x' y'
  · -- cross
    intro hf
    rw [hd] at hf
    cases hf
  · -- eidInj
    intro x1 y1 a1 x2 y2 a2 h1 h2 he
    rw [lk_insert_undir hu hav x1 y1] at h1
    rw [lk_insert_undir hu hav x2 y2] at h2
    rcases ite_some_elim h1 with ⟨_, rfl⟩ | ⟨_, h1'⟩
    · rcases ite_some_elim h2 with ⟨_, rfl⟩ | ⟨_, h2'⟩
      · rfl
      · have hlt := eid_lt_of_lk h h2'
        rw [← he, haeid] at hlt
        exact absurd hlt (lt_irrefl _)
    · rcases ite_some_elim h2 with ⟨_, rfl⟩ | ⟨_, h2'⟩
      · have hlt := eid_lt_of_lk h h1'
        rw [he, haeid] at hlt
        exact absurd hlt (lt_irrefl _)
      · exact h.eidInj x1 y1 a1 x2 y2 a2 h1' h2' he

theorem ginv_runOp {s : BuildState} (h : GInv s) (op : Op) : GInv (runOp s op) := by
  match op with
  | .insV x => exact ginv_insV h x
  | .insE i j x =>
    rcases hi : s.vs.get? i with _ | u
    · have hi' : s.vs[i]? = none := by
        rw [← List.get?_eq_getElem?]; exact hi
      have hr : runOp s (.insE i j x) = s := by
        simp [runOp, hi']
      rw [hr]; exact h
    rcases hj : s.vs.get? j with _ | v
    · have hj' : s.vs[j]? = none := by
        rw [← List.get?_eq_getElem?]; exact hj
      have hr : runOp s (.insE i j x) = s := by
        simp [runOp, hj']
      rw [hr]; exact h
    rcases hdd : s.g.direcionado with _ | _
    · exact ginv_insE_undir h i j x hi hj hdd
    · exact ginv_insE_dir h i j x hi hj hdd

theorem vid_ne_of_get? {s : BuildState} (h : GInv s) {i j : Nat} {u v : Vertice}
    (hi : s.vs.get? i = some u) (hj : s.vs.get? j = some v) (hij : i ≠ j) :
    u.vid ≠ v.vid := by
  intro he
  have hi' : s.vs[i]? = some u := by rw [← List.get?_eq_getElem?]; exact hi
  have hj' : s.vs[j]? = some v := by rw [← List.get?_eq_getElem?]; exact hj
  have h1 : (s.vs.map Vertice.vid)[i]? = some u.vid := by
    rw [List.getElem?_map, hi']; rfl
  have h2 : (s.vs.map Vertice.vid)[j]? = some v.vid := by
    rw [List.getElem?_map, hj']; rfl
  have hlen0 : i < s.vs.length := by
    by_contra hc
    rw [List.getElem?_eq_none (Nat.le_of_not_lt hc)] at hi'
    cases hi'
  have hlen : i < (s.vs.map Vertice.vid).length := by simpa using hlen0
  exact hij (List.getElem?_inj hlen h.vsNodup (by rw [h1, h2, he]))

theorem noLoop_runOp {s : BuildState} (h : GInv s) (hnl : NoLoop s) {op : Op}
    (hop : selfFree op) : NoLoop (runOp s op) := by
  match op with
  | .insV x =>
    intro z
    rw [runOp_insV]
    show lk (dset s.g.saida s.g.counter []) z z = none
    rw [lk_dset_nil]
    by_cases hz : z = s.g.counter
    · rw [if_pos hz]
    · rw [if_neg hz]; exact hnl z
  | .insE i j x =>
    rcases hi : s.vs.get? i with _ | u
    · have hi' : s.vs[i]? = none := by
        rw [← List.get?_eq_getElem?]; exact hi
      have hr : runOp s (.insE i j x) = s := by
        simp [runOp, hi']
      rw [hr]; exact hnl
    rcases hj : s.vs.get? j with _ | v
    · have hj' : s.vs[j]? = none := by
        rw [← List.get?_eq_getElem?]; exact hj
      have hr : runOp s (.insE i j x) = s := by
        simp [runOp, hj']
      rw [hr]; exact hnl
    have hne : u.vid ≠ v.vid := vid_ne_of_get? h hi hj hop
    have hu_mem : u ∈ s.vs := List.get?_mem hi
    have hv_mem : v ∈ s.vs := List.get?_mem hj
    obtain ⟨adjU, hu⟩ := dget_saida_of_mem_vs h hu_mem
    rcases hdd : s.g.direcionado with _ | _
    · -- undirected
      have hvk : v.vid ∈ dkeys s.g.saida := by
        rw [h.keysEq]; exact List.mem_map_of_mem _ hv_mem
      obtain ⟨adjV, hav, heq⟩ := inserir_aresta_undir s.g hdd u v x hu hvk
      rw [runOp_insE_valid s i j x hi hj, heq]
      intro z
      show lk (dset (dset s.g.saida u.vid (dset adjU v.vid ⟨s.g.counter, u, v, x⟩)) v.vid
        (dset adjV u.vid ⟨s.g.counter, u, v, x⟩)) z z = none
      rw [lk_insert_undir hu hav z z,
        if_neg (by
          rintro (⟨h1, h2⟩ | ⟨h1, h2⟩)
          exacts [hne (h1.symm.trans h2), hne (h2.symm.trans h1)])]
      exact hnl z
    · -- directed
      obtain ⟨adjV, hv⟩ := dget_entrada_of_mem_vs h hdd hv_mem
      rw [runOp_insE_valid s i j x hi hj, inserir_aresta_dir s.g hdd u v x hu hv]
      intro z
      show lk (dset s.g.saida u.vid (dset adjU v.vid ⟨s.g.counter, u, v, x⟩)) z z = none
      rw [lk_insert_dir hu z z,
        if_neg (fun hc => hne (hc.1.symm.trans hc.2))]
      exact hnl z

theorem noLoop_build (d : Bool) (ops : List Op) (h : ∀ op ∈ ops, selfFree op) :
    NoLoop (build d ops) := by
  suffices hgen : ∀ (l : List Op) (s : BuildState), GInv s → NoLoop s →
      (∀ op ∈ l, selfFree op) → NoLoop (l.foldl runOp s) by
    refine hgen ops ⟨Grafo.init d, []⟩ (ginv_init d) ?_ h
    intro z
    rfl
  intro l
  induction l with
  | nil => intro s _ hnl _; exact hnl
  | cons op l ih =>
    intro s hs hnl hops
    exact ih (runOp s op) (ginv_runOp hs op)
      (noLoop_runOp hs hnl (hops op (List.mem_cons_self _ _)))
      (fun op' h' => hops op' (List.mem_cons_of_mem _ h'))

theorem ginv_build (d : Bool) (ops : List Op) : GInv (build d ops) := by
  suffices hgen : ∀ (l : List Op) (s : BuildState), GInv s → GInv (l.foldl runOp s) by
    exact hgen ops ⟨Grafo.init d, []⟩ (ginv_init d)
  intro l
  induction l with
  | nil => intro s hs; exact hs
  | cons op l ih =>
    intro s hs
    exact ih (runOp s op) (ginv_runOp hs op)

theorem inserir_aresta_direcionado (g : Grafo) (u v : Vertice) (x : Elem) :
    (g.inserir_aresta u v x).1.direcionado = g.direcionado := by
  simp only [Grafo.inserir_aresta]
  split
  · rfl
  · split
    · rfl
    · simp only [Grafo.setEntrada]
      split <;> rfl

theorem direcionado_runOp (s : BuildState) (op : Op) :
    (runOp s op).g.direcionado = s.g.direcionado := by
  match op with
  | .insV x => rw [runOp_insV]
  | .insE i j x =>
    rcases hi : s.vs[i]? with _ | u
    · simp [runOp, hi]
    rcases hj : s.vs[j]? with _ | v
    · simp [runOp, hi, hj]
    have hr : runOp s (.insE i j x) = ⟨(s.g.inserir_aresta u v x).1, s.vs⟩ := by
      simp [runOp, hi, hj]
    rw [hr]
    exact inserir_aresta_direcionado s.g u v x

theorem direcionado_build (d : Bool) (ops : List Op) :
    (build d ops).g.direcionado = d := by
  suffices hgen : ∀ (l : List Op) (s : BuildState),
      (l.foldl runOp s).g.direcionado = s.g.direcionado by
    exact hgen ops ⟨Grafo.init d, []⟩
  intro l
  induction l with
  | nil => intro s; rfl
  | cons op l ih =>
    intro s
    rw [List.foldl_cons, ih (runOp s op), direcionado_runOp]

/-! ### The counting theorems -/

theorem outer_nodup {s : BuildState} (h : GInv s) : (dkeys s.g.saida).Nodup := by
  rw [h.keysEq]; exact h.vsNodup

theorem count_directed {s : BuildState} (h : GInv s) (hd : s.g.direcionado = true) :
    s.g.num_arestas = (s.g.arestas).length := by
  have hout := outer_nodup h
  have hl : (entriesD s.g.saida).Nodup := nodup_entriesD hout h.innerNodup
  have hendsD : ∀ t ∈ entriesD s.g.saida,
      (t.2.2 : Aresta).origem.vid = t.1 ∧ t.2.2.destino.vid = t.2.1 := by
    intro t ht
    obtain ⟨adj, h1, h2⟩ := mem_entriesD.mp ht
    exact h.endsD hd (t.1, adj) h1 (t.2.1, t.2.2) h2
  have hinj : ∀ t ∈ entriesD s.g.saida, ∀ r ∈ entriesD s.g.saida,
      eidOf t = eidOf r → t = r := by
    intro t ht r hr he
    have ht' : lk s.g.saida t.1 t.2.1 = some t.2.2 :=
      (lk_eq_some_iff hout h.innerNodup).mpr ht
    have hr' : lk s.g.saida r.1 r.2.1 = some r.2.2 :=
      (lk_eq_some_iff hout h.innerNodup).mpr hr
    have ha : t.2.2 = r.2.2 := h.eidInj _ _ _ _ _ _ ht' hr' he
    obtain ⟨e1, e2⟩ := hendsD t ht
    obtain ⟨f1, f2⟩ := hendsD r hr
    rw [Prod.ext_iff, Prod.ext_iff]
    refine ⟨?_, ?_, ha⟩
    · rw [← e1, ← f1, ha]
    · rw [← e2, ← f2, ha]
  have hmap : ((entriesD s.g.saida).map eidOf).Nodup := List.Nodup.map_on hinj hl
  calc s.g.num_arestas
      = (entriesD s.g.saida).length := by
        simp only [Grafo.num_arestas, Grafo.e_direcionado, Grafo.totalA, hd, if_true]
        rw [length_entriesD]
    _ = ((entriesD s.g.saida).map eidOf).length := (List.length_map _ _).symm
    _ = ((entriesD s.g.saida).map eidOf).toFinset.card :=
        (List.toFinset_card_of_nodup hmap).symm
    _ = (s.g.arestas).length := (arestas_length_eq_card s.g).symm

theorem count_undirected {s : BuildState} (h : GInv s) (hd : s.g.direcionado = false)
    (hnl : NoLoop s) : s.g.num_arestas = (s.g.arestas).length := by
  have hout := outer_nodup h
  have hl : (entriesD s.g.saida).Nodup := nodup_entriesD hout h.innerNodup
  have hmemF : ∀ t : Nat × Nat × Aresta,
      t ∈ (entriesD s.g.saida).toFinset ↔ t ∈ entriesD s.g.saida :=
    fun t => List.mem_toFinset
  have hswap : ∀ t ∈ (entriesD s.g.saida).toFinset,
      swapT t ∈ (entriesD s.g.saida).toFinset := by
    intro t ht
    rw [hmemF] at ht ⊢
    have hlk : lk s.g.saida t.1 t.2.1 = some t.2.2 :=
      (lk_eq_some_iff hout h.innerNodup).mpr ht
    have hlk2 : lk s.g.saida t.2.1 t.1 = some t.2.2 := by
      rw [h.sym hd t.2.1 t.1]; exact hlk
    exact (lk_eq_some_iff hout h.innerNodup).mp hlk2
  have hne : ∀ t ∈ (entriesD s.g.saida).toFinset, t.1 ≠ t.2.1 := by
    intro t ht he
    rw [hmemF] at ht
    have hlk : lk s.g.saida t.1 t.2.1 = some t.2.2 :=
      (lk_eq_some_iff hout h.innerNodup).mpr ht
    rw [he, hnl t.2.1] at hlk
    cases hlk
  have hinj : ∀ t ∈ (entriesD s.g.saida).toFinset,
      ∀ r ∈ (entriesD s.g.saida).toFinset,
      (t.2.2 : Aresta).eid = r.2.2.eid → t.2.2 = r.2.2 := by
    intro t ht r hr he
    rw [hmemF] at ht hr
    exact h.eidInj _ _ _ _ _ _ ((lk_eq_some_iff hout h.innerNodup).mpr ht)
      ((lk_eq_some_iff hout h.innerNodup).mpr hr) he
  have hends : ∀ t ∈ (entriesD s.g.saida).toFinset,
      ((t.2.2 : Aresta).origem.vid = t.1 ∧ t.2.2.destino.vid = t.2.1) ∨
      (t.2.2.origem.vid = t.2.1 ∧ t.2.2.destino.vid = t.1) := by
    intro t ht
    rw [hmemF] at ht
    obtain ⟨adj, h1, h2⟩ := mem_entriesD.mp ht
    exact h.ends (t.1, adj) h1 (t.2.1, t.2.2) h2
  have hcount := pairCount (entriesD s.g.saida).toFinset.card
    (entriesD s.g.saida).toFinset rfl hswap hne hinj hends
  rw [List.toFinset_card_of_nodup hl, ← toFinset_map_eq_image] at hcount
  have h1 : s.g.num_arestas = (entriesD s.g.saida).length / 2 := by
    simp only [Grafo.num_arestas, Grafo.e_direcionado, Grafo.totalA, hd,
      Bool.false_eq_true, if_false]
    rw [length_entriesD]
  rw [h1, hcount, arestas_length_eq_card]
  omega

/-! ### Query helpers -/

theorem grau_saida_elim {g : Grafo} {w : Vertice} {n : Nat}
    (h : g.grau w true = .ok n) :
    ∃ adj, dget g.saida w.vid = some adj ∧ adj.length = n := by
  rcases hh : dget g.saida w.vid with _ | adj
  · simp [Grafo.grau, hh] at h
  · refine ⟨adj, rfl, ?_⟩
    simpa [Grafo.grau, hh] using h

theorem grau_saida_intro {g : Grafo} {w : Vertice} {adj : Dict Aresta}
    (h : dget g.saida w.vid = some adj) : g.grau w true = .ok adj.length := by
  simp [Grafo.grau, h]

theorem grau_entrada_elim {g : Grafo} (hd : g.direcionado = true) {w : Vertice} {n : Nat}
    (h : g.grau w false = .ok n) :
    ∃ adj, dget g.entradaD w.vid = some adj ∧ adj.length = n := by
  rcases hh : dget g.entradaD w.vid with _ | adj
  · simp [Grafo.grau, Grafo.entrada, hd, hh] at h
  · refine ⟨adj, rfl, ?_⟩
    simpa [Grafo.grau, Grafo.entrada, hd, hh] using h

theorem grau_entrada_intro {g : Grafo} (hd : g.direcionado = true) {w : Vertice}
    {adj : Dict Aresta} (h : dget g.entradaD w.vid = some adj) :
    g.grau w false = .ok adj.length := by
  simp [Grafo.grau, Grafo.entrada, hd, h]

theorem aresta_ok_elim {g : Grafo} {u v : Vertice} {o : Option Aresta}
    (h : g.aresta u v = .ok o) :
    ∃ adj, dget g.saida u.vid = some adj ∧ dget adj v.vid = o := by
  rcases hh : dget g.saida u.vid with _ | adj
  · simp [Grafo.aresta, hh] at h
  · refine ⟨adj, rfl, ?_⟩
    simpa [Grafo.aresta, hh] using h

theorem aresta_of_lk {g : Grafo} {u v : Vertice} {a : Aresta}
    (h : lk g.saida u.vid v.vid = some a) : g.aresta u v = .ok (some a) := by
  obtain ⟨adj, h1, h2⟩ := lk_elim h
  simp [Grafo.aresta, h1, h2]

theorem inserir_aresta_ok_elim {g : Grafo} {u v : Vertice} {x : Elem} {a : Aresta}
    (h : (g.inserir_aresta u v x).2 = .ok a) : a = ⟨g.counter, u, v, x⟩ := by
  simp only [Grafo.inserir_aresta] at h
  split at h
  · cases h
  · split at h
    · cases h
    · exact (Except.ok.inj h).symm

theorem inserir_aresta_counter (g : Grafo) (u v : Vertice) (x : Elem) :
    (g.inserir_aresta u v x).1.counter = g.counter + 1 := by
  simp only [Grafo.inserir_aresta]
  split
  · rfl
  · split
    · rfl
    · simp only [Grafo.setEntrada]
      split <;> rfl

theorem totalA_dset {m : Dict (Dict Aresta)} {k : Nat} {adj : Dict Aresta}
    (h : dget m k = some adj) (w : Dict Aresta) :
    ((dset m k w).map (fun p => p.2.length)).sum + adj.length =
      (m.map (fun p => p.2.length)).sum + w.length := by
  induction m with
  | nil => simp [dget] at h
  | cons p t ih =>
    by_cases hp : p.1 = k
    · have hadj : p.2 = adj := by
        have := h
        simp [dget, hp] at this
        exact this
      simp [dset, hp, hadj]
      omega
    · have h' : dget t k = some adj := by
        simpa [dget, hp] using h
      simp only [dset, hp, if_false, List.map_cons, List.sum_cons]
      have := ih h'
      omega

theorem num_arestas_dir {g : Grafo} (hd : g.direcionado = true) :
    g.num_arestas = g.totalA := by
  simp [Grafo.num_arestas, Grafo.e_direcionado, hd]

/-! ### Effect of inserting a fresh edge, at the level of a single graph -/

theorem insert_new_edge_undir {g : Grafo} (hd : g.direcionado = false)
    (hsym : ∀ x y, lk g.saida x y = lk g.saida y x)
    {u v : Vertice} {adjU adjV0 : Dict Aresta}
    (hu : dget g.saida u.vid = some adjU) (hv0 : dget g.saida v.vid = some adjV0)
    (hnew : dget adjU v.vid = none) (x : Elem) :
    (g.inserir_aresta u v x).1.grau u true = .ok (adjU.length + 1) ∧
    (g.inserir_aresta u v x).1.grau v true = .ok (adjV0.length + 1) ∧
    ∃ a : Aresta,
      (g.inserir_aresta u v x).1.aresta u v = .ok (some a) ∧
      (g.inserir_aresta u v x).1.aresta v u = .ok (some a) ∧
      (g.inserir_aresta u v x).2 = .ok a := by
  have hvk : v.vid ∈ dkeys g.saida := mem_dkeys_of_dget hv0
  obtain ⟨adjV, hav, heq⟩ := inserir_aresta_undir g hd u v x hu hvk
  have hnew2 : dget adjV0 u.vid = none := by
    have h1 : lk g.saida u.vid v.vid = none := by rw [lk_some hu]; exact hnew
    have h2 : lk g.saida v.vid u.vid = none := by rw [hsym v.vid u.vid]; exact h1
    have h3 := lk_some hv0 u.vid
    rw [h2] at h3
    exact h3.symm
  have hsaida : (g.inserir_aresta u v x).1.saida =
      dset (dset g.saida u.vid (dset adjU v.vid ⟨g.counter, u, v, x⟩)) v.vid
        (dset adjV u.vid ⟨g.counter, u, v, x⟩) := by
    rw [heq]
  have hok : (g.inserir_aresta u v x).2 = .ok ⟨g.counter, u, v, x⟩ := by
    rw [heq]
  have hlkuv : lk (g.inserir_aresta u v x).1.saida u.vid v.vid =
      some ⟨g.counter, u, v, x⟩ := by
    rw [hsaida, lk_insert_undir hu hav, if_pos (Or.inl ⟨rfl, rfl⟩)]
  have hlkvu : lk (g.inserir_aresta u v x).1.saida v.vid u.vid =
      some ⟨g.counter, u, v, x⟩ := by
    rw [hsaida, lk_insert_undir hu hav, if_pos (Or.inr ⟨rfl, rfl⟩)]
  by_cases huv : u.vid = v.vid
  · -- self-loop insertion: both degree claims coincide
    have hadjV : adjV = dset adjU v.vid ⟨g.counter, u, v, x⟩ := by
      have hself : dget (dset g.saida u.vid (dset adjU v.vid ⟨g.counter, u, v, x⟩))
          v.vid = some (dset adjU v.vid ⟨g.counter, u, v, x⟩) := by
        rw [← huv]
        exact dget_dset_self _ _ _
      exact Option.some.inj (hav.symm.trans hself)
    have hUV0 : adjV0 = adjU := by
      have h1 : dget g.saida v.vid = some adjU := by rw [← huv]; exact hu
      exact Option.some.inj (hv0.symm.trans h1)
    have hgV : dget (g.inserir_aresta u v x).1.saida v.vid =
        some (dset adjV u.vid ⟨g.counter, u, v, x⟩) := by
      rw [hsaida]
      exact dget_dset_self _ _ _
    have hgU : dget (g.inserir_aresta u v x).1.saida u.vid =
        some (dset adjV u.vid ⟨g.counter, u, v, x⟩) := by
      conv_lhs => rw [huv]
      exact hgV
    have hsome : dget adjV u.vid = some ⟨g.counter, u, v, x⟩ := by
      rw [hadjV, huv]
      exact dget_dset_self _ _ _
    have hlen : (dset adjV u.vid ⟨g.counter, u, v, x⟩).length = adjU.length + 1 := by
      rw [length_dset_of_some _ _ hsome, hadjV, length_dset_of_none _ hnew]
    refine ⟨?_, ?_, ⟨g.counter, u, v, x⟩, aresta_of_lk hlkuv, aresta_of_lk hlkvu, hok⟩
    · have h1 := grau_saida_intro hgU
      rw [hlen] at h1
      exact h1
    · have h1 := grau_saida_intro hgV
      rw [hlen, ← hUV0] at h1
      exact h1
  · -- two distinct endpoints
    have hadjV : adjV = adjV0 := by
      have hne : dget (dset g.saida u.vid (dset adjU v.vid ⟨g.counter, u, v, x⟩))
          v.vid = dget g.saida v.vid := dget_dset_ne _ _ huv
      exact Option.some.inj (hav.symm.trans (hne.trans hv0))
    have hgU : dget (g.inserir_aresta u v x).1.saida u.vid =
        some (dset adjU v.vid ⟨g.counter, u, v, x⟩) := by
      rw [hsaida, dget_dset_ne _ _ (fun hh => huv hh.symm)]
      exact dget_dset_self _ _ _
    have hgV : dget (g.inserir_aresta u v x).1.saida v.vid =
        some (dset adjV u.vid ⟨g.counter, u, v, x⟩) := by
      rw [hsaida]
      exact dget_dset_self _ _ _
    refine ⟨?_, ?_, ⟨g.counter, u, v, x⟩, aresta_of_lk hlkuv, aresta_of_lk hlkvu, hok⟩
    · have h1 := grau_saida_intro hgU
      rw [length_dset_of_none _ hnew] at h1
      exact h1
    · have hnone' : dget adjV u.vid = none := by rw [hadjV]; exact hnew2
      have hlen : (dset adjV u.vid ⟨g.counter, u, v, x⟩).length = adjV0.length + 1 := by
        rw [length_dset_of_none _ hnone', hadjV]
      have h1 := grau_saida_intro hgV
      rw [hlen] at h1
      exact h1

theorem insert_new_edge_dir {g : Grafo} (hd : g.direcionado = true)
    (hcross : ∀ x y, lk g.saida x y = lk g.entradaD y x)
    {u v : Vertice} {adjU adjVin adjUin : Dict Aresta}
    (hu : dget g.saida u.vid = some adjU)
    (hvin : dget g.entradaD v.vid = some adjVin)
    (huin : dget g.entradaD u.vid = some adjUin)
    (hne : u.vid ≠ v.vid)
    (hnew : dget adjU v.vid = none) (x : Elem) :
    (g.inserir_aresta u v x).1.grau u true = .ok (adjU.length + 1) ∧
    (g.inserir_aresta u v x).1.grau v false = .ok (adjVin.length + 1) ∧
    (g.inserir_aresta u v x).1.grau u false = .ok adjUin.length := by
  have heq := inserir_aresta_dir g hd u v x hu hvin
  have hnew2 : dget adjVin u.vid = none := by
    have h1 : lk g.saida u.vid v.vid = none := by rw [lk_some hu]; exact hnew
    have h3 : dget adjVin u.vid = lk g.entradaD v.vid u.vid := (lk_some hvin u.vid).symm
    rw [← hcross u.vid v.vid, h1] at h3
    exact h3
  have hsaida : (g.inserir_aresta u v x).1.saida =
      dset g.saida u.vid (dset adjU v.vid ⟨g.counter, u, v, x⟩) := by rw [heq]
  have hentr : (g.inserir_aresta u v x).1.entradaD =
      dset g.entradaD v.vid (dset adjVin u.vid ⟨g.counter, u, v, x⟩) := by rw [heq]
  have hdir1 : (g.inserir_aresta u v x).1.direcionado = true := by rw [heq]; exact hd
  refine ⟨?_, ?_, ?_⟩
  · have hgU : dget (g.inserir_aresta u v x).1.saida u.vid =
        some (dset adjU v.vid ⟨g.counter, u, v, x⟩) := by
      rw [hsaida]
      exact dget_dset_self _ _ _
    have h1 := grau_saida_intro hgU
    rw [length_dset_of_none _ hnew] at h1
    exact h1
  · have hgV : dget (g.inserir_aresta u v x).1.entradaD v.vid =
        some (dset adjVin u.vid ⟨g.counter, u, v, x⟩) := by
      rw [hentr]
      exact dget_dset_self _ _ _
    have h1 := grau_entrada_intro hdir1 hgV
    rw [length_dset_of_none _ hnew2] at h1
    exact h1
  · have hgUin : dget (g.inserir_aresta u v x).1.entradaD u.vid = some adjUin := by
      rw [hentr, dget_dset_ne _ _ (fun hh => hne hh.symm)]
      exact huin
    exact grau_entrada_intro hdir1 hgUin

/-! ### Double insertion with the same ordered pair -/

theorem double_insert_undir (g : Grafo) (hd : g.direcionado = false) (u v : Vertice)
    (p1 p2 : Elem) {adjU adjV0 : Dict Aresta}
    (hu : dget g.saida u.vid = some adjU) (hv : dget g.saida v.vid = some adjV0) :
    ∃ a1 a2 : Aresta,
      (g.inserir_aresta u v p1).2 = .ok a1 ∧
      ((g.inserir_aresta u v p1).1.inserir_aresta u v p2).2 = .ok a2 ∧
      ((g.inserir_aresta u v p1).1.inserir_aresta u v p2).1.aresta u v =
        .ok (some a2) ∧
      a2.peso = p2 := by
  have hvk : v.vid ∈ dkeys g.saida := mem_dkeys_of_dget hv
  have huk : u.vid ∈ dkeys g.saida := mem_dkeys_of_dget hu
  obtain ⟨adjV, hav, heq⟩ := inserir_aresta_undir g hd u v p1 hu hvk
  have hdir1 : (g.inserir_aresta u v p1).1.direcionado = false := by rw [heq]; exact hd
  have hsaida1 : (g.inserir_aresta u v p1).1.saida =
      dset (dset g.saida u.vid (dset adjU v.vid ⟨g.counter, u, v, p1⟩)) v.vid
        (dset adjV u.vid ⟨g.counter, u, v, p1⟩) := by rw [heq]
  have hkeys1 : dkeys (g.inserir_aresta u v p1).1.saida = dkeys g.saida := by
    rw [hsaida1, dkeys_dset_of_some _ _ hav, dkeys_dset_of_some _ _ hu]
  have hu1 : u.vid ∈ dkeys (g.inserir_aresta u v p1).1.saida := by
    rw [hkeys1]; exact huk
  have hv1 : v.vid ∈ dkeys (g.inserir_aresta u v p1).1.saida := by
    rw [hkeys1]; exact hvk
  obtain ⟨adjU2, hu2⟩ := dget_isSome_of_mem_dkeys hu1
  obtain ⟨adjV2, hav2, heq2⟩ :=
    inserir_aresta_undir (g.inserir_aresta u v p1).1 hdir1 u v p2 hu2 hv1
  refine ⟨⟨g.counter, u, v, p1⟩,
    ⟨(g.inserir_aresta u v p1).1.counter, u, v, p2⟩, ?_, ?_, ?_, rfl⟩
  · rw [heq]
  · rw [heq2]
  · have hlk : lk ((g.inserir_aresta u v p1).1.inserir_aresta u v p2).1.saida
        u.vid v.vid =
        some ⟨(g.inserir_aresta u v p1).1.counter, u, v, p2⟩ := by
      have hsaida2 : ((g.inserir_aresta u v p1).1.inserir_aresta u v p2).1.saida =
          dset (dset (g.inserir_aresta u v p1).1.saida u.vid
            (dset adjU2 v.vid ⟨(g.inserir_aresta u v p1).1.counter, u, v, p2⟩)) v.vid
            (dset adjV2 u.vid ⟨(g.inserir_aresta u v p1).1.counter, u, v, p2⟩) := by
        rw [heq2]
      rw [hsaida2, lk_insert_undir hu2 hav2, if_pos (Or.inl ⟨rfl, rfl⟩)]
    exact aresta_of_lk hlk

theorem double_insert_dir (g : Grafo) (hd : g.direcionado = true) (u v : Vertice)
    (p1 p2 : Elem) {adjU adjVin : Dict Aresta}
    (hu : dget g.saida u.vid = some adjU) (hv : dget g.entradaD v.vid = some adjVin) :
    ∃ a1 a2 : Aresta,
      (g.inserir_aresta u v p1).2 = .ok a1 ∧
      ((g.inserir_aresta u v p1).1.inserir_aresta u v p2).2 = .ok a2 ∧
      ((g.inserir_aresta u v p1).1.inserir_aresta u v p2).1.aresta u v =
        .ok (some a2) ∧
      a2.peso = p2 := by
  have heq := inserir_aresta_dir g hd u v p1 hu hv
  have hdir1 : (g.inserir_aresta u v p1).1.direcionado = true := by rw [heq]; exact hd
  have hsaida1 : (g.inserir_aresta u v p1).1.saida =
      dset g.saida u.vid (dset adjU v.vid ⟨g.counter, u, v, p1⟩) := by rw [heq]
  have hentr1 : (g.inserir_aresta u v p1).1.entradaD =
      dset g.entradaD v.vid (dset adjVin u.vid ⟨g.counter, u, v, p1⟩) := by rw [heq]
  have hu2 : dget (g.inserir_aresta u v p1).1.saida u.vid =
      some (dset adjU v.vid ⟨g.counter, u, v, p1⟩) := by
    rw [hsaida1]
    exact dget_dset_self _ _ _
  have hv2 : dget (g.inserir_aresta u v p1).1.entradaD v.vid =
      some (dset adjVin u.vid ⟨g.counter, u, v, p1⟩) := by
    rw [hentr1]
    exact dget_dset_self _ _ _
  have heq2 := inserir_aresta_dir (g.inserir_aresta u v p1).1 hdir1 u v p2 hu2 hv2
  refine ⟨⟨g.counter, u, v, p1⟩,
    ⟨(g.inserir_aresta u v p1).1.counter, u, v, p2⟩, ?_, ?_, ?_, rfl⟩
  · rw [heq]
  · rw [heq2]
  · have hlk : lk ((g.inserir_aresta u v p1).1.inserir_aresta u v p2).1.saida
        u.vid v.vid =
        some ⟨(g.inserir_aresta u v p1).1.counter, u, v, p2⟩ := by
      have hsaida2 : ((g.inserir_aresta u v p1).1.inserir_aresta u v p2).1.saida =
          dset (g.inserir_aresta u v p1).1.saida u.vid
            (dset (dset adjU v.vid ⟨g.counter, u, v, p1⟩) v.vid
              ⟨(g.inserir_aresta u v p1).1.counter, u, v, p2⟩) := by
        rw [heq2]
      rw [hsaida2, lk_insert_dir hu2, if_pos ⟨rfl, rfl⟩]
    exact aresta_of_lk hlk

/-! ### Claim C1 -/

/-- C1 counterexample: in an undirected graph holding one vertex, inserting a
self-loop on that vertex leaves `num_arestas()` at `0` while `arestas()`
contains `1` edge, so the two disagree on this graph built by `insert_vertex`
and `insert_edge` calls. -/
theorem C1_counterexample :
    (build false [.insV none, .insE 0 0 none]).g.num_arestas = 0 ∧
    ((build false [.insV none, .insE 0 0 none]).g.arestas).length = 1 :=
  ⟨rfl, rfl⟩

/-- C1 (amended): for every graph built by any sequence of `insert_vertex` and
`insert_edge` calls, `edge_count()` equals the number of distinct edges in
`edges()`, provided that when the graph is undirected no self-loop edge was
inserted. -/
theorem C1_edge_count_eq_len (d : Bool) (ops : List Op)
    (hops : d = false → ∀ op ∈ ops, selfFree op) :
    (build d ops).g.num_arestas = ((build d ops).g.arestas).length := by
  have hg := ginv_build d ops
  have hd := direcionado_build d ops
  cases d with
  | false => exact count_undirected hg hd (noLoop_build false ops (hops rfl))
  | true => exact count_directed hg hd

/-- C1 witness: the amended theorem applied to a concrete three-operation
undirected program. -/
theorem C1_edge_count_eq_len_witness :
    ((false : Bool) = false →
      ∀ op ∈ ([.insV none, .insV none, .insE 0 1 none] : List Op), selfFree op) ∧
    (build false [.insV none, .insV none, .insE 0 1 none]).g.num_arestas =
      ((build false [.insV none, .insV none, .insE 0 1 none]).g.arestas).length :=
  ⟨fun _ => by decide,
   C1_edge_count_eq_len false [.insV none, .insV none, .insE 0 1 none]
     (fun _ => by decide)⟩

/-! ### Claim C2 -/

/-- C2 counterexample: in an undirected graph where the edge between the two
vertices already exists, inserting the edge `(u, v)` again leaves `degree(u)`
at `1` instead of increasing it by exactly `1`. -/
theorem C2_counterexample :
    (build false [.insV none, .insV none, .insE 0 1 none]).vs.get? 0 =
      some ⟨0, none⟩ ∧
    (build false [.insV none, .insV none, .insE 0 1 none]).vs.get? 1 =
      some ⟨1, none⟩ ∧
    (build false [.insV none, .insV none, .insE 0 1 none]).g.grau ⟨0, none⟩ true =
      .ok 1 ∧
    ((build false [.insV none, .insV none, .insE 0 1 none]).g.inserir_aresta
      ⟨0, none⟩ ⟨1, none⟩ none).1.grau ⟨0, none⟩ true = .ok 1 :=
  ⟨rfl, rfl, rfl, rfl⟩

/-- C2 (amended): in every undirected graph built by the operations, for
vertices `u`, `v` of the graph with no edge yet between `u` and `v`, inserting
edge `(u, v)` increases `degree(u)` and `degree(v)` each by exactly `1`, and
afterwards `edge(u, v)` and `edge(v, u)` return the very same edge object. -/
theorem C2_insert_increments_degrees (ops : List Op) (i j : Nat) (u v : Vertice)
    (x : Elem) (du dv : Nat)
    (hi : (build false ops).vs.get? i = some u)
    (hj : (build false ops).vs.get? j = some v)
    (habs : (build false ops).g.aresta u v = .ok none)
    (hdu : (build false ops).g.grau u true = .ok du)
    (hdv : (build false ops).g.grau v true = .ok dv) :
    ((build false ops).g.inserir_aresta u v x).1.grau u true = .ok (du + 1) ∧
    ((build false ops).g.inserir_aresta u v x).1.grau v true = .ok (dv + 1) ∧
    ∃ a : Aresta,
      ((build false ops).g.inserir_aresta u v x).1.aresta u v = .ok (some a) ∧
      ((build false ops).g.inserir_aresta u v x).1.aresta v u = .ok (some a) := by
  have h := ginv_build false ops
  have hd := direcionado_build false ops
  obtain ⟨adjU, hu', hvnone⟩ := aresta_ok_elim habs
  obtain ⟨adjU2, hu2, hlenU⟩ := grau_saida_elim hdu
  obtain ⟨adjV0, hv0, hlenV⟩ := grau_saida_elim hdv
  have hUU : adjU2 = adjU := Option.some.inj (hu2.symm.trans hu')
  subst hUU
  obtain ⟨hg1, hg2, a, ha1, ha2, _⟩ :=
    insert_new_edge_undir hd (h.sym hd) hu' hv0 hvnone x
  rw [hlenU] at hg1
  rw [hlenV] at hg2
  exact ⟨hg1, hg2, a, ha1, ha2⟩

/-- C2 witness: the amended theorem applied to the two-vertex undirected graph
with no prior edge. -/
theorem C2_insert_increments_degrees_witness :
    ((build false [.insV none, .insV none]).vs.get? 0 = some ⟨0, none⟩) ∧
    ((build false [.insV none, .insV none]).vs.get? 1 = some ⟨1, none⟩) ∧
    ((build false [.insV none, .insV none]).g.aresta ⟨0, none⟩ ⟨1, none⟩ =
      .ok none) ∧
    ((build false [.insV none, .insV none]).g.grau ⟨0, none⟩ true = .ok 0) ∧
    ((build false [.insV none, .insV none]).g.grau ⟨1, none⟩ true = .ok 0) ∧
    (((build false [.insV none, .insV none]).g.inserir_aresta ⟨0, none⟩ ⟨1, none⟩
        (some 5)).1.grau ⟨0, none⟩ true = .ok (0 + 1) ∧
      ((build false [.insV none, .insV none]).g.inserir_aresta ⟨0, none⟩ ⟨1, none⟩
        (some 5)).1.grau ⟨1, none⟩ true = .ok (0 + 1) ∧
      ∃ a : Aresta,
        ((build false [.insV none, .insV none]).g.inserir_aresta ⟨0, none⟩
          ⟨1, none⟩ (some 5)).1.aresta ⟨0, none⟩ ⟨1, none⟩ = .ok (some a) ∧
        ((build false [.insV none, .insV none]).g.inserir_aresta ⟨0, none⟩
          ⟨1, none⟩ (some 5)).1.aresta ⟨1, none⟩ ⟨0, none⟩ = .ok (some a)) :=
  ⟨rfl, rfl, rfl, rfl, rfl,
   C2_insert_increments_degrees [.insV none, .insV none] 0 1 ⟨0, none⟩ ⟨1, none⟩
     (some 5) 0 0 rfl rfl rfl rfl rfl⟩

/-! ### Claim C3 -/

/-- C3 counterexample: in a directed graph, inserting a self-loop `(u, u)` on a
vertex of the graph changes `degree(u, outgoing=false)` from `0` to `1`, and
re-inserting an existing edge `(u, v)` leaves `degree(u, outgoing=true)` at `1`
instead of increasing it by `1`. -/
theorem C3_counterexample :
    ((build true [.insV none]).vs.get? 0 = some ⟨0, none⟩ ∧
      (build true [.insV none]).g.grau ⟨0, none⟩ false = .ok 0 ∧
      ((build true [.insV none]).g.inserir_aresta ⟨0, none⟩ ⟨0, none⟩ none).1.grau
        ⟨0, none⟩ false = .ok 1) ∧
    ((build true [.insV none, .insV none, .insE 0 1 none]).g.grau ⟨0, none⟩ true =
        .ok 1 ∧
      ((build true [.insV none, .insV none, .insE 0 1 none]).g.inserir_aresta
        ⟨0, none⟩ ⟨1, none⟩ none).1.grau ⟨0, none⟩ true = .ok 1) :=
  ⟨⟨rfl, rfl, rfl⟩, rfl, rfl⟩

/-- C3 (amended): in every directed graph built by the operations, for distinct
vertices `u`, `v` of the graph with no edge from `u` to `v` yet, inserting edge
`(u, v)` increases `degree(u, outgoing=true)` by `1` and
`degree(v, outgoing=false)` by `1`, while `degree(u, outgoing=false)` is
unchanged. -/
theorem C3_directed_insert_degrees (ops : List Op) (i j : Nat) (u v : Vertice)
    (x : Elem) (dout dvin duin : Nat)
    (hi : (build true ops).vs.get? i = some u)
    (hj : (build true ops).vs.get? j = some v)
    (hne : u.vid ≠ v.vid)
    (habs : (build true ops).g.aresta u v = .ok none)
    (hdu : (build true ops).g.grau u true = .ok dout)
    (hdv : (build true ops).g.grau v false = .ok dvin)
    (hduin : (build true ops).g.grau u false = .ok duin) :
    ((build true ops).g.inserir_aresta u v x).1.grau u true = .ok (dout + 1) ∧
    ((build true ops).g.inserir_aresta u v x).1.grau v false = .ok (dvin + 1) ∧
    ((build true ops).g.inserir_aresta u v x).1.grau u false = .ok duin := by
  have h := ginv_build true ops
  have hd := direcionado_build true ops
  obtain ⟨adjU, hu', hvnone⟩ := aresta_ok_elim habs
  obtain ⟨adjU2, hu2, hlenU⟩ := grau_saida_elim hdu
  obtain ⟨adjVin, hvin, hlenV⟩ := grau_entrada_elim hd hdv
  obtain ⟨adjUin, huin, hlenUin⟩ := grau_entrada_elim hd hduin
  have hUU : adjU2 = adjU := Option.some.inj (hu2.symm.trans hu')
  subst hUU
  obtain ⟨hg1, hg2, hg3⟩ :=
    insert_new_edge_dir hd (h.cross hd) hu' hvin huin hne hvnone x
  rw [hlenU] at hg1
  rw [hlenV] at hg2
  rw [hlenUin] at hg3
  exact ⟨hg1, hg2, hg3⟩

/-- C3 witness: the amended theorem applied to the two-vertex directed graph
with no prior edge. -/
theorem C3_directed_insert_degrees_witness :
    ((build true [.insV none, .insV none]).vs.get? 0 = some ⟨0, none⟩) ∧
    ((build true [.insV none, .insV none]).vs.get? 1 = some ⟨1, none⟩) ∧
    ((⟨0, none⟩ : Vertice).vid ≠ (⟨1, none⟩ : Vertice).vid) ∧
    ((build true [.insV none, .insV none]).g.aresta ⟨0, none⟩ ⟨1, none⟩ =
      .ok none) ∧
    ((build true [.insV none, .insV none]).g.grau ⟨0, none⟩ true = .ok 0) ∧
    ((build true [.insV none, .insV none]).g.grau ⟨1, none⟩ false = .ok 0) ∧
    ((build true [.insV none, .insV none]).g.grau ⟨0, none⟩ false = .ok 0) ∧
    (((build true [.insV none, .insV none]).g.inserir_aresta ⟨0, none⟩ ⟨1, none⟩
        (some 9)).1.grau ⟨0, none⟩ true = .ok (0 + 1) ∧
      ((build true [.insV none, .insV none]).g.inserir_aresta ⟨0, none⟩ ⟨1, none⟩
        (some 9)).1.grau ⟨1, none⟩ false = .ok (0 + 1) ∧
      ((build true [.insV none, .insV none]).g.inserir_aresta ⟨0, none⟩ ⟨1, none⟩
        (some 9)).1.grau ⟨0, none⟩ false = .ok 0) :=
  ⟨rfl, rfl, by decide, rfl, rfl, rfl, rfl,
   C3_directed_insert_degrees [.insV none, .insV none] 0 1 ⟨0, none⟩ ⟨1, none⟩
     (some 9) 0 0 0 rfl rfl (by decide) rfl rfl rfl rfl⟩

/-! ### Claim C4 -/

/-- C4 counterexample: two edges constructed by two `insert_edge` calls with the
same `(origin, destination)` pair (and even the same payload) have equal hash
keys but are not equal: `pyEqAresta`, Python's default identity equality on the
`Aresta` class (which defines `__hash__` but no `__eq__`), returns `false`. -/
theorem C4_counterexample :
    ((build false [.insV none, .insV none]).g.inserir_aresta ⟨0, none⟩ ⟨1, none⟩
      (some 7)).2 = .ok ⟨2, ⟨0, none⟩, ⟨1, none⟩, some 7⟩ ∧
    (((build false [.insV none, .insV none]).g.inserir_aresta ⟨0, none⟩ ⟨1, none⟩
      (some 7)).1.inserir_aresta ⟨0, none⟩ ⟨1, none⟩ (some 7)).2 =
      .ok ⟨3, ⟨0, none⟩, ⟨1, none⟩, some 7⟩ ∧
    (⟨2, ⟨0, none⟩, ⟨1, none⟩, some 7⟩ : Aresta).hashKey =
      (⟨3, ⟨0, none⟩, ⟨1, none⟩, some 7⟩ : Aresta).hashKey ∧
    pyEqAresta ⟨2, ⟨0, none⟩, ⟨1, none⟩, some 7⟩ ⟨3, ⟨0, none⟩, ⟨1, none⟩, some 7⟩ =
      false :=
  ⟨rfl, rfl, rfl, rfl⟩

/-- C4 (amended): two edges constructed separately by `insert_edge` with the
same `(origin, destination)` ordered pair have the same hash key (hashing is
derived from the endpoint pair, not from the payload), but they are not
considered equal: the edge class defines no `__eq__`, so equality is object
identity and the two distinct edge objects compare unequal. -/
theorem C4_hash_from_pair_eq_is_identity (g : Grafo) (u v : Vertice)
    (p1 p2 : Elem) {a1 a2 : Aresta}
    (h1 : (g.inserir_aresta u v p1).2 = .ok a1)
    (h2 : ((g.inserir_aresta u v p1).1.inserir_aresta u v p2).2 = .ok a2) :
    a1.hashKey = a2.hashKey ∧ pyEqAresta a1 a2 = false ∧ a1 ≠ a2 := by
  have e1 : a1 = ⟨g.counter, u, v, p1⟩ := inserir_aresta_ok_elim h1
  have e2 : a2 = ⟨(g.inserir_aresta u v p1).1.counter, u, v, p2⟩ :=
    inserir_aresta_ok_elim h2
  have hc : (g.inserir_aresta u v p1).1.counter = g.counter + 1 :=
    inserir_aresta_counter g u v p1
  subst e1
  subst e2
  refine ⟨rfl, ?_, ?_⟩
  · show (g.counter == (g.inserir_aresta u v p1).1.counter) = false
    rw [hc, beq_eq_false_iff_ne]
    omega
  · intro hcontra
    have he : g.counter = (g.inserir_aresta u v p1).1.counter :=
      congrArg Aresta.eid hcontra
    rw [hc] at he
    omega

/-- C4 witness: the amended theorem applied to two concrete insertions into the
two-vertex undirected graph. -/
theorem C4_hash_from_pair_eq_is_identity_witness :
    (((build false [.insV none, .insV none]).g.inserir_aresta ⟨0, none⟩ ⟨1, none⟩
      (some 7)).2 = .ok ⟨2, ⟨0, none⟩, ⟨1, none⟩, some 7⟩) ∧
    ((((build false [.insV none, .insV none]).g.inserir_aresta ⟨0, none⟩ ⟨1, none⟩
      (some 7)).1.inserir_aresta ⟨0, none⟩ ⟨1, none⟩ (some 7)).2 =
      .ok ⟨3, ⟨0, none⟩, ⟨1, none⟩, some 7⟩) ∧
    ((⟨2, ⟨0, none⟩, ⟨1, none⟩, some 7⟩ : Aresta).hashKey =
      (⟨3, ⟨0, none⟩, ⟨1, none⟩, some 7⟩ : Aresta).hashKey ∧
     pyEqAresta ⟨2, ⟨0, none⟩, ⟨1, none⟩, some 7⟩
       ⟨3, ⟨0, none⟩, ⟨1, none⟩, some 7⟩ = false ∧
     (⟨2, ⟨0, none⟩, ⟨1, none⟩, some 7⟩ : Aresta) ≠
       ⟨3, ⟨0, none⟩, ⟨1, none⟩, some 7⟩) :=
  ⟨rfl, rfl,
   C4_hash_from_pair_eq_is_identity (build false [.insV none, .insV none]).g
     ⟨0, none⟩ ⟨1, none⟩ (some 7) (some 7) rfl rfl⟩

/-! ### Claim C5 -/

/-- C5: for every graph built by the operations and vertices `u`, `v` of the
graph, inserting `(u, v, p1)` and then `(u, v, p2)` raises no error, afterwards
`edge(u, v)` returns exactly one edge, and that edge holds the second payload
`p2`. -/
theorem C5_duplicate_insert_overwrites (d : Bool) (ops : List Op) (i j : Nat)
    (u v : Vertice) (p1 p2 : Elem)
    (hi : (build d ops).vs.get? i = some u)
    (hj : (build d ops).vs.get? j = some v) :
    ∃ a1 a2 : Aresta,
      ((build d ops).g.inserir_aresta u v p1).2 = .ok a1 ∧
      (((build d ops).g.inserir_aresta u v p1).1.inserir_aresta u v p2).2 =
        .ok a2 ∧
      (((build d ops).g.inserir_aresta u v p1).1.inserir_aresta u v p2).1.aresta
        u v = .ok (some a2) ∧
      a2.peso = p2 := by
  have h := ginv_build d ops
  have hd := direcionado_build d ops
  have hu_mem : u ∈ (build d ops).vs := List.get?_mem hi
  have hv_mem : v ∈ (build d ops).vs := List.get?_mem hj
  cases d with
  | false =>
    obtain ⟨adjU, hu'⟩ := dget_saida_of_mem_vs h hu_mem
    obtain ⟨adjV0, hv'⟩ := dget_saida_of_mem_vs h hv_mem
    exact double_insert_undir _ hd u v p1 p2 hu' hv'
  | true =>
    obtain ⟨adjU, hu'⟩ := dget_saida_of_mem_vs h hu_mem
    obtain ⟨adjVin, hv'⟩ := dget_entrada_of_mem_vs h hd hv_mem
    exact double_insert_dir _ hd u v p1 p2 hu' hv'

/-- C5 witness: the theorem applied to the two-vertex undirected graph with two
distinct payloads. -/
theorem C5_duplicate_insert_overwrites_witness :
    ((build false [.insV none, .insV none]).vs.get? 0 = some ⟨0, none⟩) ∧
    ((build false [.insV none, .insV none]).vs.get? 1 = some ⟨1, none⟩) ∧
    (∃ a1 a2 : Aresta,
      ((build false [.insV none, .insV none]).g.inserir_aresta ⟨0, none⟩ ⟨1, none⟩
        (some 1)).2 = .ok a1 ∧
      (((build false [.insV none, .insV none]).g.inserir_aresta ⟨0, none⟩
        ⟨1, none⟩ (some 1)).1.inserir_aresta ⟨0, none⟩ ⟨1, none⟩ (some 2)).2 =
        .ok a2 ∧
      (((build false [.insV none, .insV none]).g.inserir_aresta ⟨0, none⟩
        ⟨1, none⟩ (some 1)).1.inserir_aresta ⟨0, none⟩ ⟨1, none⟩
        (some 2)).1.aresta ⟨0, none⟩ ⟨1, none⟩ = .ok (some a2) ∧
      a2.peso = some 2) :=
  ⟨rfl, rfl,
   C5_duplicate_insert_overwrites false [.insV none, .insV none] 0 1 ⟨0, none⟩
     ⟨1, none⟩ (some 1) (some 2) rfl rfl⟩

/-! ### Claim C6 -/

/-- C6: for every edge (whose endpoints do not artificially share an object
identity without being the same vertex, which insertion never produces),
`opposite(origin)` returns the destination, `opposite(destination)` returns the
origin, and for any vertex not identity-equal to the stored origin — including
one that is neither endpoint — `opposite` returns the origin instead of
failing. -/
theorem C6_oposto_endpoints (a : Aresta)
    (hinj : a.destino.vid = a.origem.vid → a.destino = a.origem) :
    a.oposto a.origem = a.destino ∧ a.oposto a.destino = a.origem ∧
    ∀ w : Vertice, w.vid ≠ a.origem.vid → a.oposto w = a.origem := by
  refine ⟨?_, ?_, ?_⟩
  · simp [Aresta.oposto]
  · by_cases hd2 : a.destino.vid = a.origem.vid
    · simp [Aresta.oposto, hd2, hinj hd2]
    · simp [Aresta.oposto, hd2]
  · intro w hw
    simp [Aresta.oposto, hw]

/-- C6 witness: the theorem applied to a concrete edge between two distinct
vertices. -/
theorem C6_oposto_endpoints_witness :
    ((⟨0, ⟨0, none⟩, ⟨1, none⟩, some 3⟩ : Aresta).destino.vid =
        (⟨0, ⟨0, none⟩, ⟨1, none⟩, some 3⟩ : Aresta).origem.vid →
      (⟨0, ⟨0, none⟩, ⟨1, none⟩, some 3⟩ : Aresta).destino =
        (⟨0, ⟨0, none⟩, ⟨1, none⟩, some 3⟩ : Aresta).origem) ∧
    ((⟨0, ⟨0, none⟩, ⟨1, none⟩, some 3⟩ : Aresta).oposto
        (⟨0, ⟨0, none⟩, ⟨1, none⟩, some 3⟩ : Aresta).origem =
        (⟨0, ⟨0, none⟩, ⟨1, none⟩, some 3⟩ : Aresta).destino ∧
      (⟨0, ⟨0, none⟩, ⟨1, none⟩, some 3⟩ : Aresta).oposto
        (⟨0, ⟨0, none⟩, ⟨1, none⟩, some 3⟩ : Aresta).destino =
        (⟨0, ⟨0, none⟩, ⟨1, none⟩, some 3⟩ : Aresta).origem ∧
      ∀ w : Vertice,
        w.vid ≠ (⟨0, ⟨0, none⟩, ⟨1, none⟩, some 3⟩ : Aresta).origem.vid →
        (⟨0, ⟨0, none⟩, ⟨1, none⟩, some 3⟩ : Aresta).oposto w =
          (⟨0, ⟨0, none⟩, ⟨1, none⟩, some 3⟩ : Aresta).origem) :=
  ⟨by decide, C6_oposto_endpoints _ (by decide)⟩

/-! ### Claim C7 -/

/-- C7: `aresta(u, v)` yields the absent value `none` (not a hard error)
whenever `u` is a key of the adjacency map but no edge runs from `u` to `v`,
and raises a `KeyError` (the `error` case) whenever `u` is not a known vertex
of the graph. -/
theorem C7_aresta_absent_vs_error (g : Grafo) (u v : Vertice) :
    (dget g.saida u.vid = none → g.aresta u v = .error ()) ∧
    (∀ adj, dget g.saida u.vid = some adj → dget adj v.vid = none →
      g.aresta u v = .ok none) := by
  constructor
  · intro h
    simp [Grafo.aresta, h]
  · intro adj h1 h2
    simp [Grafo.aresta, h1, h2]

/-- C7 witness: in a two-vertex graph with no edges, looking up from an unknown
vertex raises the lookup error, and looking up a missing edge between two known
vertices yields the absent value. -/
theorem C7_aresta_absent_vs_error_witness :
    dget (build false [.insV none, .insV none]).g.saida
      (⟨7, none⟩ : Vertice).vid = none ∧
    (build false [.insV none, .insV none]).g.aresta ⟨7, none⟩ ⟨0, none⟩ =
      .error () ∧
    dget (build false [.insV none, .insV none]).g.saida
      (⟨0, none⟩ : Vertice).vid = some [] ∧
    dget ([] : Dict Aresta) (⟨1, none⟩ : Vertice).vid = none ∧
    (build false [.insV none, .insV none]).g.aresta ⟨0, none⟩ ⟨1, none⟩ =
      .ok none :=
  ⟨rfl,
   (C7_aresta_absent_vs_error (build false [.insV none, .insV none]).g ⟨7, none⟩
     ⟨0, none⟩).1 rfl,
   rfl, rfl,
   (C7_aresta_absent_vs_error (build false [.insV none, .insV none]).g ⟨0, none⟩
     ⟨1, none⟩).2 [] rfl rfl⟩

/-! ### Claim C8 -/

/-- C8: `e_direcionado()` returns the flag the graph was constructed with —
false for `Grafo.init false` (the default), true for `Grafo.init true` — and
its value is recorded by whether `_entrada` is a dict object distinct from
`_saida`, which is fixed in `__init__`; the value is stable across every
subsequent `insert_vertex` and `insert_edge` call. -/
theorem C8_is_directed_stable (d : Bool) (ops : List Op) :
    (Grafo.init d).e_direcionado = d ∧ (build d ops).g.e_direcionado = d :=
  ⟨rfl, direcionado_build d ops⟩

/-! ### Claim C9 -/

/-- C9: in an undirected graph with six vertices `a, ..., f` and the four edges
`(a,b)`, `(a,c)`, `(c,d)`, `(b,d)`, the vertex count is `6`, the edge count is
`4`, `degree(a)` is `2` and `degree(e)` is `0`. -/
theorem C9_scenario :
    (build false [.insV (some 1), .insV (some 2), .insV (some 3), .insV (some 4),
      .insV (some 5), .insV (some 6), .insE 0 1 none, .insE 0 2 none,
      .insE 2 3 none, .insE 1 3 none]).vs.get? 0 = some ⟨0, some 1⟩ ∧
    (build false [.insV (some 1), .insV (some 2), .insV (some 3), .insV (some 4),
      .insV (some 5), .insV (some 6), .insE 0 1 none, .insE 0 2 none,
      .insE 2 3 none, .insE 1 3 none]).vs.get? 4 = some ⟨4, some 5⟩ ∧
    (build false [.insV (some 1), .insV (some 2), .insV (some 3), .insV (some 4),
      .insV (some 5), .insV (some 6), .insE 0 1 none, .insE 0 2 none,
      .insE 2 3 none, .insE 1 3 none]).g.num_vertices = 6 ∧
    (build false [.insV (some 1), .insV (some 2), .insV (some 3), .insV (some 4),
      .insV (some 5), .insV (some 6), .insE 0 1 none, .insE 0 2 none,
      .insE 2 3 none, .insE 1 3 none]).g.num_arestas = 4 ∧
    (build false [.insV (some 1), .insV (some 2), .insV (some 3), .insV (some 4),
      .insV (some 5), .insV (some 6), .insE 0 1 none, .insE 0 2 none,
      .insE 2 3 none, .insE 1 3 none]).g.grau ⟨0, some 1⟩ true = .ok 2 ∧
    (build false [.insV (some 1), .insV (some 2), .insV (some 3), .insV (some 4),
      .insV (some 5), .insV (some 6), .insE 0 1 none, .insE 0 2 none,
      .insE 2 3 none, .insE 1 3 none]).g.grau ⟨4, some 5⟩ true = .ok 0 :=
  ⟨rfl, rfl, rfl, rfl, rfl, rfl⟩

/-! ### Claim C10 -/

/-- C10: in a directed graph built by the operations, inserting an edge from a
vertex `u` of the graph to a vertex `v` that does not belong to it raises the
lookup error, yet the write to `_saida[u]` has already happened: on failure
`num_arestas()` has grown by `1` and `grau(u, saida=True)` has grown by `1`. -/
theorem C10_failed_insert_modifies (ops : List Op) (i : Nat) (u v : Vertice)
    (x : Elem) (du : Nat)
    (hi : (build true ops).vs.get? i = some u)
    (hv : v.vid ∉ (build true ops).vs.map Vertice.vid)
    (hdu : (build true ops).g.grau u true = .ok du) :
    ((build true ops).g.inserir_aresta u v x).2 = .error () ∧
    ((build true ops).g.inserir_aresta u v x).1.num_arestas =
      (build true ops).g.num_arestas + 1 ∧
    ((build true ops).g.inserir_aresta u v x).1.grau u true = .ok (du + 1) := by
  have h := ginv_build true ops
  have hd := direcionado_build true ops
  obtain ⟨adjU, hu', hlen⟩ := grau_saida_elim hdu
  have hvnone_in : dget (build true ops).g.entradaD v.vid = none := by
    rw [dget_eq_none_iff, h.keysEqIn hd]
    exact hv
  have hvnone : dget adjU v.vid = none := by
    rcases hh : dget adjU v.vid with _ | b
    · rfl
    · exact absurd (h.innerKeys _ (dget_mem hu') _ (dget_mem hh)) hv
  have heq := inserir_aresta_dir_fail _ hd u v x hu' hvnone_in
  have hsaida : ((build true ops).g.inserir_aresta u v x).1.saida =
      dset (build true ops).g.saida u.vid
        (dset adjU v.vid ⟨(build true ops).g.counter, u, v, x⟩) := by
    rw [heq]
  have hdir1 : ((build true ops).g.inserir_aresta u v x).1.direcionado = true := by
    rw [heq]
    exact hd
  refine ⟨?_, ?_, ?_⟩
  · rw [heq]
  · rw [num_arestas_dir hdir1, num_arestas_dir hd]
    have htot := totalA_dset hu'
      (dset adjU v.vid ⟨(build true ops).g.counter, u, v, x⟩)
    rw [length_dset_of_none _ hvnone] at htot
    simp only [Grafo.totalA, hsaida]
    omega
  · have hgU : dget ((build true ops).g.inserir_aresta u v x).1.saida u.vid =
        some (dset adjU v.vid ⟨(build true ops).g.counter, u, v, x⟩) := by
      rw [hsaida]
      exact dget_dset_self _ _ _
    have h1 := grau_saida_intro hgU
    rw [length_dset_of_none _ hvnone, hlen] at h1
    exact h1

/-- C10 witness: the theorem applied to the one-vertex directed graph and a
vertex that was never inserted. -/
theorem C10_failed_insert_modifies_witness :
    ((build true [.insV none]).vs.get? 0 = some ⟨0, none⟩) ∧
    ((⟨7, none⟩ : Vertice).vid ∉ (build true [.insV none]).vs.map Vertice.vid) ∧
    ((build true [.insV none]).g.grau ⟨0, none⟩ true = .ok 0) ∧
    (((build true [.insV none]).g.inserir_aresta ⟨0, none⟩ ⟨7, none⟩ none).2 =
        .error () ∧
      ((build true [.insV none]).g.inserir_aresta ⟨0, none⟩ ⟨7, none⟩
        none).1.num_arestas = (build true [.insV none]).g.num_arestas + 1 ∧
      ((build true [.insV none]).g.inserir_aresta ⟨0, none⟩ ⟨7, none⟩
        none).1.grau ⟨0, none⟩ true = .ok (0 + 1)) :=
  ⟨rfl, by decide, rfl,
   C10_failed_insert_modifies [.insV none] 0 ⟨0, none⟩ ⟨7, none⟩ none 0 rfl
     (by decide) rfl⟩

